import Mathlib

/-!
# Verification of the site-crawler core of `seo-auditor-mcp`

Shallow embedding of `src/analyzers/site_crawler.py` (class `SiteCrawler`):
the breadth-first crawl loop `crawl_site`, the link extractor
`_extract_internal_links`, and the broken-link auditor `find_broken_links`.

URLs are modelled as `List Char`.  The relevant parts of CPython's
`urllib.parse` (`urlparse`, `urlsplit`, `urljoin`, `urlunparse`) are embedded
directly, since the crawler's normalization and link resolution are defined
in terms of them.  Simplifications of the `urllib.parse` model, each noted at
the definition: the `ValueError` raised on mismatched IPv6 brackets in a
netloc is not modelled, and byte/str coercion is not modelled (all inputs are
character lists).

External collaborators are parameters, following the spec's component split:
* `fetch : List Char → Except (List Char) (List Char)` - the fetch primitive
  (`_make_request`); `.error e` models `(None, str(e))`, `.ok body` models a
  response with text `body`.
* `parseHrefs : List Char → List (List Char)` - BeautifulSoup's
  `soup.find_all('a', href=True)` href values, in document order.
* `analyze : List Char → List Char → α` - `_analyze_page`'s summary of one
  fetched page (its fields are out of scope; claims only count summaries).
* `probe : List Char → Except (List Char) ProbeResponse` - the
  non-redirect-following `session.get` used by `find_broken_links`.
-/

abbrev Chars := List Char

/-! ## Model of `urllib.parse` (CPython) -/

/-- CPython `urllib.parse.scheme_chars`. -/
def schemeChars : Chars :=
  "abcdefghijklmnopqrstuvwxyzABCDEFGHIJKLMNOPQRSTUVWXYZ0123456789+-.".toList

/-- CPython `urllib.parse.uses_relative`. -/
def usesRelative : List Chars :=
  (["", "ftp", "http", "gopher", "nntp", "imap", "wais", "file", "https",
    "shttp", "mms", "prospero", "rtsp", "rtspu", "sftp", "svn", "svn+ssh",
    "ws", "wss"]).map String.toList

/-- CPython `urllib.parse.uses_netloc`. -/
def usesNetloc : List Chars :=
  (["", "ftp", "http", "gopher", "nntp", "telnet", "imap", "wais", "file",
    "mms", "https", "shttp", "snews", "prospero", "rtsp", "rtspu", "rsync",
    "svn", "svn+ssh", "sftp", "nfs", "git", "git+ssh", "ws", "wss",
    "itms-services"]).map String.toList

/-- CPython `urllib.parse.uses_params`. -/
def usesParams : List Chars :=
  (["", "ftp", "hdl", "prospero", "http", "imap", "https", "shttp", "rtsp",
    "rtspu", "sip", "sips", "mms", "sftp", "tel"]).map String.toList

/-- CPython `urlsplit` first removes the unsafe bytes
`_UNSAFE_URL_BYTES_TO_REMOVE = ["\t", "\r", "\n"]` from the URL. -/
def removeUnsafe (l : Chars) : Chars :=
  l.filter fun c => c != '\t' && c != '\r' && c != '\n'

/-- The scheme-splitting step of CPython `urlsplit`: at the first `':'`, if
the part before it is nonempty, starts with an ASCII letter and consists of
`scheme_chars`, it is the (lowercased) scheme; otherwise the default scheme
is kept and the URL is left whole. -/
def splitScheme (url : Chars) (defaultScheme : Chars) : Chars × Chars :=
  let pre := url.takeWhile (· != ':')
  match url.dropWhile (· != ':') with
  | [] => (defaultScheme, url)
  | _ :: rest =>
    match pre with
    | [] => (defaultScheme, url)
    | c :: _ =>
      if c.isAlpha && pre.all (fun d => schemeChars.contains d) then
        (pre.map Char.toLower, rest)
      else (defaultScheme, url)

/-- Characters that terminate the netloc in CPython `_splitnetloc`. -/
def netlocDelim (c : Char) : Bool := c == '/' || c == '?' || c == '#'

/-- CPython `_splitnetloc` (after the leading `"//"` has been dropped):
the netloc runs until the first `'/'`, `'?'` or `'#'`.  The `ValueError` on
mismatched IPv6 brackets is not modelled. -/
def splitnetloc (l : Chars) : Chars × Chars :=
  (l.takeWhile (fun c => !netlocDelim c), l.dropWhile (fun c => !netlocDelim c))

/-- `s.split(sep, 1)` for a single character, as used by `urlsplit` for the
fragment and query: if `sep` does not occur the second component is empty. -/
def splitOnFirst (sep : Char) (l : Chars) : Chars × Chars :=
  (l.takeWhile (· != sep), (l.dropWhile (· != sep)).drop 1)

structure SplitResult where
  scheme : Chars
  netloc : Chars
  path : Chars
  query : Chars
  fragment : Chars
deriving DecidableEq

/-- CPython `urlsplit` (with `allow_fragments=True`): remove unsafe bytes,
split off the scheme, then the netloc after a leading `"//"`, then the
fragment at the first `'#'`, then the query at the first `'?'`. -/
def urlsplit (url : Chars) (defaultScheme : Chars := []) : SplitResult :=
  let url1 := removeUnsafe url
  let ds := removeUnsafe defaultScheme
  let sr := splitScheme url1 ds
  let nr :=
    if sr.2.take 2 = ['/', '/'] then splitnetloc (sr.2.drop 2) else ([], sr.2)
  let fr := splitOnFirst '#' nr.2
  let qr := splitOnFirst '?' fr.1
  ⟨sr.1, nr.1, qr.1, qr.2, fr.2⟩

/-- CPython `_splitparams`: split the path at the first `';'` at or after the
last `'/'` (or the first `';'` anywhere if the path has no `'/'`). -/
def splitparams (p : Chars) : Chars × Chars :=
  if p.contains '/' then
    let suf := (p.reverse.takeWhile (· != '/')).reverse
    if suf.contains ';' then
      (p.take (p.length - suf.length) ++ suf.takeWhile (· != ';'),
       (suf.dropWhile (· != ';')).drop 1)
    else (p, [])
  else if p.contains ';' then
    (p.takeWhile (· != ';'), (p.dropWhile (· != ';')).drop 1)
  else (p, [])

structure ParseResult where
  scheme : Chars
  netloc : Chars
  path : Chars
  params : Chars
  query : Chars
  fragment : Chars
deriving DecidableEq

/-- CPython `urlparse`: `urlsplit`, then split params off the path when the
scheme uses params and the path contains a `';'`. -/
def urlparse (url : Chars) (defaultScheme : Chars := []) : ParseResult :=
  let s := urlsplit url defaultScheme
  if s.scheme ∈ usesParams ∧ s.path.contains ';' then
    let pr := splitparams s.path
    ⟨s.scheme, s.netloc, pr.1, pr.2, s.query, s.fragment⟩
  else ⟨s.scheme, s.netloc, s.path, [], s.query, s.fragment⟩

/-- CPython `urlunsplit`. -/
def urlunsplit (scheme netloc path query fragment : Chars) : Chars :=
  let u1 :=
    if netloc ≠ [] ∨ (path ≠ [] ∧ path.take 2 = ['/', '/']) then
      '/' :: '/' :: netloc ++
        (if path ≠ [] ∧ path.take 1 ≠ ['/'] then '/' :: path else path)
    else path
  let u2 := if scheme ≠ [] then scheme ++ ':' :: u1 else u1
  let u3 := if query ≠ [] then u2 ++ '?' :: query else u2
  if fragment ≠ [] then u3 ++ '#' :: fragment else u3

/-- CPython `urlunparse`. -/
def urlunparse (scheme netloc path params query fragment : Chars) : Chars :=
  urlunsplit scheme netloc (if params ≠ [] then path ++ ';' :: params else path)
    query fragment

/-- CPython `urljoin`'s `segments[1:-1] = filter(None, segments[1:-1])`:
drop empty segments strictly between the first and the last. -/
def middleFilter (segs : List Chars) : List Chars :=
  match segs with
  | [] => []
  | [s] => [s]
  | s :: rest => s :: (rest.dropLast.filter (· ≠ []) ++ [rest.getLastD []])

/-- CPython `urljoin`'s resolution loop over path segments: `'..'` pops the
last resolved segment (no-op when empty), `'.'` is skipped. -/
def resolveSegments (segs : List Chars) : List Chars :=
  segs.foldl (fun acc seg =>
    if seg = ['.', '.'] then acc.dropLast
    else if seg = ['.'] then acc
    else acc ++ [seg]) []

/-- CPython `urljoin(base, url)`. -/
def urljoin (base url : Chars) : Chars :=
  if base = [] then url
  else if url = [] then base
  else
    let b := urlparse base []
    let r := urlparse url b.scheme
    if r.scheme ≠ b.scheme ∨ r.scheme ∉ usesRelative then url
    else if r.scheme ∈ usesNetloc ∧ r.netloc ≠ [] then
      urlunparse r.scheme r.netloc r.path r.params r.query r.fragment
    else
      let netloc := if r.scheme ∈ usesNetloc then b.netloc else r.netloc
      if r.path = [] ∧ r.params = [] then
        urlunparse r.scheme netloc b.path b.params
          (if r.query = [] then b.query else r.query) r.fragment
      else
        let baseParts0 := b.path.splitOn '/'
        let baseParts :=
          if baseParts0.getLastD [] ≠ [] then baseParts0.dropLast else baseParts0
        let segments :=
          if r.path.take 1 = ['/'] then r.path.splitOn '/'
          else middleFilter (baseParts ++ r.path.splitOn '/')
        let resolved0 := resolveSegments segments
        let resolved :=
          if segments.getLastD [] = ['.'] ∨ segments.getLastD [] = ['.', '.'] then
            resolved0 ++ [[]]
          else resolved0
        let joined := List.intercalate ['/'] resolved
        urlunparse r.scheme netloc (if joined = [] then ['/'] else joined)
          r.params r.query r.fragment

/-! ## Model of `SiteCrawler._extract_internal_links` -/

/-- The loop body of `SiteCrawler._extract_internal_links` for one href:
skip falsy hrefs, resolve with `urljoin`, keep only links whose parsed
netloc equals `base_domain`, rebuild as `f"{scheme}://{netloc}{path}"`, and
deduplicate by membership in the accumulated list. -/
def extractStep (baseUrl baseDomain : Chars) (links : List Chars)
    (href : Chars) : List Chars :=
  if href = [] then links
  else
    let parsedUrl := urlparse (urljoin baseUrl href) []
    if parsedUrl.netloc = baseDomain then
      let cleanUrl := parsedUrl.scheme ++ "://".toList ++ parsedUrl.netloc ++
        parsedUrl.path
      if cleanUrl ∈ links then links else links ++ [cleanUrl]
    else links

/-- `SiteCrawler._extract_internal_links(html, base_url, base_domain)`, with
BeautifulSoup's href extraction supplied as the already-extracted list
`hrefs` (in document order). -/
def extract_internal_links (hrefs : List Chars) (baseUrl : Chars)
    (baseDomain : Chars) : List Chars :=
  hrefs.foldl (extractStep baseUrl baseDomain) []

/-- The href schemes called out as malformed by the spec: `javascript:`,
`mailto:`, `tel:`. -/
def badSchemes : List Chars :=
  (["javascript", "mailto", "tel"]).map String.toList

/-- The URL normalization used at line 188 of `site_crawler.py`:
`f"{parsed_url.scheme}://{parsed_url.netloc}{parsed_url.path}"`, i.e. reduce
to scheme+host+path, dropping fragment and query. -/
def normalize_url (u : Chars) : Chars :=
  let p := urlparse u []
  p.scheme ++ "://".toList ++ p.netloc ++ p.path

/-! ## Model of `SiteCrawler.crawl_site` -/

/-- A recorded page (one entry of the `pages` list built by `crawl_site`).
`summary` is `_analyze_page`'s output (abstract here); `originDepth` is a
ghost observation recording the depth of the frontier entry the page was
produced from, used only to state the depth invariant. -/
structure PageRecord (α : Type) where
  url : Chars
  originDepth : Nat
  summary : α
deriving DecidableEq

/-- Final state of the crawl loop of `crawl_site`.  `crawled_urls` is the
visited set in insertion order (Python uses a `set`; only membership and
cardinality are observed, both order-independent).  `trace` (dequeued
frontier entries in dequeue order), `enq` (entries appended to the frontier,
in append order) and `finalQueue` (the frontier left at termination) are
ghost observations used only to state ordering properties. -/
structure CrawlOutcome (α : Type) where
  crawled_urls : List Chars
  pages : List (PageRecord α)
  errors : List Chars
  trace : List (Chars × Nat)
  enq : List (Chars × Nat)
  finalQueue : List (Chars × Nat)
deriving DecidableEq

/-- The error entry `f"Failed to crawl {current_url}: {error}"`. -/
def failMsg (url err : Chars) : Chars :=
  "Failed to crawl ".toList ++ url ++ ": ".toList ++ err

/-- The `while to_crawl and len(crawled_urls) < max_pages:` loop of
`crawl_site` (lines 86-110).  One recursive call per loop iteration: pop the
head of `to_crawl`; skip it if already crawled or too deep; otherwise mark it
crawled, fetch it, either record the error or record the page and (when
`current_depth < depth`) enqueue the extracted internal links not already
crawled, at depth+1. -/
def crawl_loop (fetch : Chars → Except Chars Chars) (analyze : Chars → Chars → α)
    (parseHrefs : Chars → List Chars) (baseDomain : Chars)
    (maxPages maxDepth : Nat) (crawledUrls : List Chars)
    (toCrawl : List (Chars × Nat)) (pages : List (PageRecord α))
    (errors : List Chars) : CrawlOutcome α :=
  match toCrawl with
  | [] => ⟨crawledUrls, pages, errors, [], [], []⟩
  | (currentUrl, currentDepth) :: rest =>
    if h : crawledUrls.length < maxPages then
      if currentUrl ∈ crawledUrls ∨ currentDepth > maxDepth then
        let o := crawl_loop fetch analyze parseHrefs baseDomain maxPages maxDepth
          crawledUrls rest pages errors
        { o with trace := (currentUrl, currentDepth) :: o.trace }
      else
        let crawled := crawledUrls ++ [currentUrl]
        match fetch currentUrl with
        | .error e =>
          let o := crawl_loop fetch analyze parseHrefs baseDomain maxPages maxDepth
            crawled rest pages (errors ++ [failMsg currentUrl e])
          { o with trace := (currentUrl, currentDepth) :: o.trace }
        | .ok body =>
          let page : PageRecord α := ⟨currentUrl, currentDepth, analyze currentUrl body⟩
          let newLinks :=
            if currentDepth < maxDepth then
              (extract_internal_links (parseHrefs body) currentUrl baseDomain).filter
                (fun l => !crawled.contains l)
            else []
          let appended := newLinks.map (fun l => (l, currentDepth + 1))
          let o := crawl_loop fetch analyze parseHrefs baseDomain maxPages maxDepth
            crawled (rest ++ appended) (pages ++ [page]) errors
          { o with trace := (currentUrl, currentDepth) :: o.trace,
                   enq := appended ++ o.enq }
    else ⟨crawledUrls, pages, errors, [], [], toCrawl⟩
termination_by (maxPages - crawledUrls.length, toCrawl.length)
decreasing_by
  · apply Prod.Lex.right
    simp
  · apply Prod.Lex.left
    simp only [List.length_append, List.length_cons, List.length_nil]
    omega
  · apply Prod.Lex.left
    simp only [List.length_append, List.length_cons, List.length_nil]
    omega

/-- The dictionary returned by `crawl_site` (lines 125-134), minus the
wall-clock `crawl_time`, which is not modelled. -/
structure CrawlReport (α : Type) where
  url : Chars
  pages_found : Nat
  pages_crawled : Nat
  errorCount : Nat
  crawl_depth : Nat
  pageSummaries : List (PageRecord α)
  error_summary : List Chars
deriving DecidableEq

/-- `SiteCrawler.crawl_site(url, max_pages, depth)`.  Returns the report
dictionary together with the loop's final state (the latter is the internal
state `crawled_urls`/`pages`/`errors` plus ghost observations). -/
def crawl_site (fetch : Chars → Except Chars Chars) (analyze : Chars → Chars → α)
    (parseHrefs : Chars → List Chars) (url : Chars)
    (maxPages : Nat) (depth : Nat) : CrawlReport α × CrawlOutcome α :=
  let baseDomain := (urlparse url []).netloc
  let o := crawl_loop fetch analyze parseHrefs baseDomain maxPages depth [] [(url, 0)] [] []
  (⟨url, o.pages.length, o.crawled_urls.length, o.errors.length, depth,
    o.pages.take 10, o.errors.take 5⟩, o)

/-! ## Model of `SiteCrawler.find_broken_links` -/

/-- A response to a redirect-disabled probe (`session.get(link_url,
follow_redirects=False)`): its status code and its `Location` header
(`none` models a missing header, so that `headers.get('location', '')`
becomes `location.getD []`). -/
structure ProbeResponse where
  status_code : Nat
  location : Option Chars
deriving DecidableEq

/-- An entry of the `broken_links` list: `status_code` is `some` for the
HTTP-error case (with message `f"HTTP {status}"`) and `none` for the
exception case (with the exception message). -/
structure BrokenEntry where
  url : Chars
  status_code : Option Nat
  error : Chars
deriving DecidableEq

/-- An entry of the `redirects` list. -/
structure RedirectEntry where
  url : Chars
  status_code : Nat
  redirect_target : Chars
deriving DecidableEq

/-- The status codes treated as redirects: `[301, 302, 303, 307, 308]`. -/
def redirectCodes : List Nat := [301, 302, 303, 307, 308]

/-- `f"HTTP {status_code}"`. -/
def httpErrorMsg (n : Nat) : Chars := "HTTP ".toList ++ (Nat.repr n).toList

/-- The `for link_url in unique_links:` probing loop of `find_broken_links`
(lines 397-421): status ≥ 400 appends a broken entry, a redirect status
appends a redirect entry with the `location` header (default empty), any
exception appends a broken entry with the exception message. -/
def probe_links (probe : Chars → Except Chars ProbeResponse) :
    List Chars → List BrokenEntry × List RedirectEntry
  | [] => ([], [])
  | u :: rest =>
    let res := probe_links probe rest
    match probe u with
    | .ok r =>
      if r.status_code ≥ 400 then
        (⟨u, some r.status_code, httpErrorMsg r.status_code⟩ :: res.1, res.2)
      else if r.status_code ∈ redirectCodes then
        (res.1, ⟨u, r.status_code, r.location.getD []⟩ :: res.2)
      else res
    | .error e => (⟨u, none, e⟩ :: res.1, res.2)

/-- `list(set(links))`: deduplication of the raw link list.  Python's `set`
iterates in a hash-dependent order; it is modelled as first-occurrence
order.  Every claim about `find_broken_links` is insensitive to this order
(only lengths, membership and per-link classification are claimed). -/
def dedup (l : List Chars) : List Chars :=
  l.foldl (fun acc u => if u ∈ acc then acc else acc ++ [u]) []

/-- The raw link collection of `find_broken_links` (lines 384-388): every
non-falsy href resolved against the page URL, duplicates kept, no domain
filtering and no fragment/query stripping. -/
def page_links (parseHrefs : Chars → List Chars) (url body : Chars) :
    List Chars :=
  (parseHrefs body).foldl (fun links href =>
    if href = [] then links else links ++ [urljoin url href]) []

/-- Return value of `find_broken_links`: either the error-shaped dictionary
`{url, error, broken_links: [], redirects: []}` returned when the seed fetch
fails (lines 372-378), or the full report (lines 423-438; the static
recommendation strings are not modelled).  `healthy_links` is an integer,
computed as `len(unique_links) - len(broken_links) - len(redirects)`. -/
inductive BrokenLinksResult where
  | errorResult (url : Chars) (error : Chars)
  | report (url : Chars) (total_links_checked : Nat)
      (broken_links : List BrokenEntry) (redirects : List RedirectEntry)
      (healthy_links : Int)
deriving DecidableEq

/-- `SiteCrawler.find_broken_links(url)`. -/
def find_broken_links (fetch : Chars → Except Chars Chars)
    (probe : Chars → Except Chars ProbeResponse)
    (parseHrefs : Chars → List Chars) (url : Chars) : BrokenLinksResult :=
  match fetch url with
  | .error e => .errorResult url e
  | .ok body =>
    let uniqueLinks := (dedup (page_links parseHrefs url body)).take 50
    let res := probe_links probe uniqueLinks
    .report url uniqueLinks.length res.1 res.2
      ((uniqueLinks.length : Int) - res.1.length - res.2.length)

/-! ## Probe classification (C7, C8, C10) -/

/-- Modelled from the spec (§4.6, classification rules): the broken-link
entry, if any, that probing `u` must yield — `some` with the HTTP status for
status ≥ 400, `some` with the exception message for a network-level failure,
`none` otherwise. -/
def specBrokenOf (probe : Chars → Except Chars ProbeResponse) (u : Chars) :
    Option BrokenEntry :=
  match probe u with
  | .ok r =>
    if r.status_code ≥ 400 then
      some ⟨u, some r.status_code, httpErrorMsg r.status_code⟩
    else none
  | .error e => some ⟨u, none, e⟩

/-- Modelled from the spec (§4.6, classification rules): the redirect entry,
if any, that probing `u` must yield — `some` with the `Location` header value
(empty when absent) for a non-error status in {301, 302, 303, 307, 308},
`none` otherwise. -/
def specRedirectOf (probe : Chars → Except Chars ProbeResponse) (u : Chars) :
    Option RedirectEntry :=
  match probe u with
  | .ok r =>
    if r.status_code ≥ 400 then none
    else if r.status_code ∈ redirectCodes then
      some ⟨u, r.status_code, r.location.getD []⟩
    else none
  | .error _ => none

/-- Concrete link-audit collaborators used by witnesses. -/
def exAuditSeed : Chars := "https://example.com/".toList

def exAuditBody : Chars := "<html>".toList

def exAuditFetch : Chars → Except Chars Chars := fun u =>
  if u = exAuditSeed then .ok exAuditBody else .error "no fetch".toList

def exAuditHrefs : Chars → List Chars := fun _ =>
  ["/old".toList, "/gone".toList, "/fine".toList, "/boom".toList]

def exAuditProbe : Chars → Except Chars ProbeResponse := fun u =>
  if u = "https://example.com/old".toList then .ok ⟨301, some "/new".toList⟩
  else if u = "https://example.com/gone".toList then .ok ⟨404, none⟩
  else if u = "https://example.com/fine".toList then .ok ⟨200, none⟩
  else .error "conn reset".toList

-- Sanity checks of the urllib model against CPython behaviour.
example : urljoin "https://example.com/".toList "/about".toList =
    "https://example.com/about".toList := by decide
example : urljoin "https://example.com/a/b".toList "c".toList =
    "https://example.com/a/c".toList := by decide
example : urljoin "https://example.com/".toList "mailto:x@y".toList =
    "mailto:x@y".toList := by decide
example : urljoin "https://example.com/".toList "tel://example.com/foo".toList =
    "tel://example.com/foo".toList := by decide
example : urlparse "https://example.com/p?q=1#frag".toList [] =
    ⟨"https".toList, "example.com".toList, "/p".toList, [], "q=1".toList,
     "frag".toList⟩ := by decide
example : urlparse "//host/path".toList [] =
    ⟨[], "host".toList, "/path".toList, [], [], []⟩ := by decide
example : urljoin "https://example.com/a/".toList "../x".toList =
    "https://example.com/x".toList := by decide
example : urljoin "https://example.com/a/b".toList "//other.com/c".toList =
    "https://other.com/c".toList := by decide
example : urljoin "https://example.com/x".toList "?q=2".toList =
    "https://example.com/x?q=2".toList := by decide

-- Sanity check: the extractor filters to the base domain, strips
-- query/fragment and deduplicates.
example :
    extract_internal_links
      ["/about?x=1#top".toList, "https://other.com/a".toList,
       "/about".toList, "mailto:a@b.c".toList, [],
       "contact".toList]
      "https://example.com/".toList "example.com".toList =
    ["https://example.com/about".toList,
     "https://example.com/contact".toList] := by decide

/-- The final segment of a path: everything after its last `'/'` (the whole
path when it has no `'/'`).  This is the region CPython `_splitparams`
searches for `';'`; it is used to state the params-splitting invariant. -/
def afterLastSlash (p : Chars) : Chars :=
  (p.reverse.takeWhile (· != '/')).reverse

/-- Concrete crawl collaborators used by witnesses and counterexamples. -/
def exSeed : Chars := "https://example.com/".toList

/-- A seed URL carrying a query string. -/
def exSeedQ : Chars := "https://example.com/?q=1".toList

/-- The one internal link discovered below the seed in the examples. -/
def exChild : Chars := "https://example.com/child".toList

def exAnalyze : Chars → Chars → Unit := fun _ _ => ()

/-- Page parser yielding a single internal href `/child` on every page. -/
def exHrefsChild : Chars → List Chars := fun _ => ["/child".toList]

/-- A fetch primitive that fails on every URL. -/
def exFetchFailAll : Chars → Except Chars Chars :=
  fun _ => .error "connection timed out".toList

/-- A fetch primitive where the seed succeeds and everything else times
out. -/
def exFetchChildFails : Chars → Except Chars Chars := fun u =>
  if u = exSeed then .ok "<body>".toList else .error "timed out".toList

/-- Every status code in `redirectCodes` is below 400. -/
theorem redirectCodes_lt_400 : ∀ n ∈ redirectCodes, n < 400 := by decide

/-- A broken entry produced by the spec classification carries the probed
URL itself. -/
theorem specBrokenOf_url (probe : Chars → Except Chars ProbeResponse)
    (u : Chars) (be : BrokenEntry) (h : specBrokenOf probe u = some be) :
    be.url = u := by
  unfold specBrokenOf at h
  cases hp : probe u with
  | ok r =>
    rw [hp] at h
    by_cases h4 : r.status_code ≥ 400
    · simp only [h4, if_pos, Option.some.injEq] at h
      rw [← h]
    · simp [h4] at h
  | error e =>
    rw [hp] at h
    simp only [Option.some.injEq] at h
    rw [← h]

/-- The probing loop of `find_broken_links` produces exactly the broken and
redirect entries demanded by the spec's per-link classification. -/
theorem probe_links_eq_spec (probe : Chars → Except Chars ProbeResponse)
    (links : List Chars) :
    probe_links probe links =
      (links.filterMap (specBrokenOf probe),
       links.filterMap (specRedirectOf probe)) := by
  induction links with
  | nil => rfl
  | cons u rest ih =>
    simp only [probe_links, ih, List.filterMap_cons]
    cases hp : probe u with
    | ok r =>
      simp only [specBrokenOf, specRedirectOf, hp]
      by_cases h4 : r.status_code ≥ 400
      · simp [h4]
      · by_cases hr : r.status_code ∈ redirectCodes
        · simp [h4, hr]
        · simp [h4, hr]
    | error e => simp [specBrokenOf, specRedirectOf, hp]

/-- Each probed link contributes at most one entry across the two lists. -/
theorem probe_links_length_le (probe : Chars → Except Chars ProbeResponse)
    (links : List Chars) :
    (probe_links probe links).1.length + (probe_links probe links).2.length ≤
      links.length := by
  induction links with
  | nil => simp [probe_links]
  | cons u rest ih =>
    cases hp : probe u with
    | ok r =>
      simp only [probe_links, hp, List.length_cons]
      split
      · simp only [List.length_cons]
        omega
      · split
        · simp only [List.length_cons]
          omega
        · omega
    | error e =>
      simp only [probe_links, hp, List.length_cons]
      omega

/-- **C1-C10 claim theorems start here.**

**C7.** For every probed link in a link audit: probe status ≥ 400 is
classified broken (entry `{url, status, "HTTP {status}"}`); status in
{301, 302, 303, 307, 308} is classified redirect with the `Location` header
value captured verbatim; otherwise the link is healthy (appears in neither
list); and a network-level failure while probing is recorded as broken with
the exception message as reason, never raised to the caller: the audit's
broken and redirect lists are exactly the spec's per-link classification of
the checked links. -/
theorem claim_c7_audit_classification (fetch : Chars → Except Chars Chars)
    (probe : Chars → Except Chars ProbeResponse)
    (parseHrefs : Chars → List Chars) (url body : Chars)
    (hf : fetch url = .ok body) :
    find_broken_links fetch probe parseHrefs url =
      .report url ((dedup (page_links parseHrefs url body)).take 50).length
        (((dedup (page_links parseHrefs url body)).take 50).filterMap
          (specBrokenOf probe))
        (((dedup (page_links parseHrefs url body)).take 50).filterMap
          (specRedirectOf probe))
        ((((dedup (page_links parseHrefs url body)).take 50).length : Int) -
          (((dedup (page_links parseHrefs url body)).take 50).filterMap
            (specBrokenOf probe)).length -
          (((dedup (page_links parseHrefs url body)).take 50).filterMap
            (specRedirectOf probe)).length) := by
  unfold find_broken_links
  rw [hf]
  simp only [probe_links_eq_spec]

/-- Witness for C7 at a concrete audit: one 301 link with target `/new`, one
404, one healthy 200, one connection failure. -/
theorem claim_c7_witness :
    find_broken_links exAuditFetch exAuditProbe exAuditHrefs exAuditSeed =
      .report exAuditSeed
        ((dedup (page_links exAuditHrefs exAuditSeed exAuditBody)).take 50).length
        (((dedup (page_links exAuditHrefs exAuditSeed exAuditBody)).take 50).filterMap
          (specBrokenOf exAuditProbe))
        (((dedup (page_links exAuditHrefs exAuditSeed exAuditBody)).take 50).filterMap
          (specRedirectOf exAuditProbe))
        ((((dedup (page_links exAuditHrefs exAuditSeed exAuditBody)).take 50).length : Int) -
          (((dedup (page_links exAuditHrefs exAuditSeed exAuditBody)).take 50).filterMap
            (specBrokenOf exAuditProbe)).length -
          (((dedup (page_links exAuditHrefs exAuditSeed exAuditBody)).take 50).filterMap
            (specRedirectOf exAuditProbe)).length) :=
  claim_c7_audit_classification exAuditFetch exAuditProbe exAuditHrefs
    exAuditSeed exAuditBody rfl

/-- **C8.** For every link audit whose seed fetch succeeds, the number of
links checked is at most the fixed cap of 50 after deduplication, and the
reported healthy-link count equals links checked minus broken minus
redirects (which is moreover non-negative). -/
theorem claim_c8_audit_counts (fetch : Chars → Except Chars Chars)
    (probe : Chars → Except Chars ProbeResponse)
    (parseHrefs : Chars → List Chars) (url body : Chars)
    (hf : fetch url = .ok body) :
    ∃ tot b r, find_broken_links fetch probe parseHrefs url =
        .report url tot b r ((tot : Int) - b.length - r.length) ∧
      tot ≤ 50 ∧ b.length + r.length ≤ tot := by
  unfold find_broken_links
  rw [hf]
  refine ⟨_, _, _, rfl, ?_, ?_⟩
  · exact List.length_take_le 50 _
  · exact probe_links_length_le probe _

/-- Witness for C8 at the concrete audit. -/
theorem claim_c8_witness :
    ∃ tot b r, find_broken_links exAuditFetch exAuditProbe exAuditHrefs exAuditSeed =
        .report exAuditSeed tot b r ((tot : Int) - b.length - r.length) ∧
      tot ≤ 50 ∧ b.length + r.length ≤ tot :=
  claim_c8_audit_counts exAuditFetch exAuditProbe exAuditHrefs exAuditSeed
    exAuditBody rfl

/-- **C10.** For every link audit, a probe response whose status is in
{301, 302, 303, 307, 308} but which carries no `Location` header is still
recorded as a redirect whose target is the empty string, never as a broken
link. -/
theorem claim_c10_redirect_without_location (fetch : Chars → Except Chars Chars)
    (probe : Chars → Except Chars ProbeResponse)
    (parseHrefs : Chars → List Chars) (url body u : Chars) (st : Nat)
    (hf : fetch url = .ok body)
    (hu : u ∈ (dedup (page_links parseHrefs url body)).take 50)
    (hp : probe u = .ok ⟨st, none⟩) (hst : st ∈ redirectCodes) :
    ∃ tot b r, find_broken_links fetch probe parseHrefs url =
        .report url tot b r ((tot : Int) - b.length - r.length) ∧
      (⟨u, st, []⟩ : RedirectEntry) ∈ r ∧ ∀ be ∈ b, be.url ≠ u := by
  have hlt : st < 400 := redirectCodes_lt_400 st hst
  unfold find_broken_links
  rw [hf]
  simp only [probe_links_eq_spec]
  refine ⟨_, _, _, rfl, ?_, ?_⟩
  · refine List.mem_filterMap.mpr ⟨u, hu, ?_⟩
    simp only [specRedirectOf, hp]
    rw [if_neg (by omega), if_pos hst]
    rfl
  · intro be hbe
    rcases List.mem_filterMap.mp hbe with ⟨v, _, hv⟩
    have hvurl : be.url = v := specBrokenOf_url probe v be hv
    intro hcontra
    rw [hcontra] at hvurl
    rw [← hvurl] at hv
    simp only [specBrokenOf, hp] at hv
    rw [if_neg (by omega)] at hv
    exact Option.noConfusion hv

/-- Witness for C10: a 302 response with no `Location` header on the only
link of the audited page. -/
theorem claim_c10_witness :
    ∃ tot b r,
      find_broken_links exAuditFetch
          (fun _ => .ok ⟨302, none⟩)
          (fun _ => ["/only".toList]) exAuditSeed =
        .report exAuditSeed tot b r ((tot : Int) - b.length - r.length) ∧
      (⟨"https://example.com/only".toList, 302, []⟩ : RedirectEntry) ∈ r ∧
      ∀ be ∈ b, be.url ≠ "https://example.com/only".toList :=
  claim_c10_redirect_without_location exAuditFetch (fun _ => .ok ⟨302, none⟩)
    (fun _ => ["/only".toList]) exAuditSeed exAuditBody
    "https://example.com/only".toList 302 rfl (by decide) rfl (by decide)

/-! ## Crawl-loop invariants (C1-C5) -/

/-- The crawl loop never grows the visited set beyond `max_pages`. -/
theorem crawl_loop_length_le {α : Type} (fetch : Chars → Except Chars Chars)
    (analyze : Chars → Chars → α) (parseHrefs : Chars → List Chars)
    (baseDomain : Chars) (maxPages maxDepth : Nat) (crawledUrls : List Chars)
    (toCrawl : List (Chars × Nat)) (pages : List (PageRecord α))
    (errors : List Chars) (hlen : crawledUrls.length ≤ maxPages) :
    (crawl_loop fetch analyze parseHrefs baseDomain maxPages maxDepth
      crawledUrls toCrawl pages errors).crawled_urls.length ≤ maxPages := by
  induction crawledUrls, toCrawl, pages, errors using
      crawl_loop.induct fetch analyze parseHrefs baseDomain maxPages maxDepth with
  | case1 crawledUrls pages errors =>
    rw [crawl_loop]
    exact hlen
  | case2 crawledUrls pages errors currentUrl currentDepth rest hlt hskip ih =>
    rw [crawl_loop]
    simp only [hlt, hskip, dif_pos, if_pos]
    exact ih hlen
  | case3 crawledUrls pages errors currentUrl currentDepth rest hlt hskip crawled e hfe ih =>
    rw [crawl_loop]
    simp only [hlt, hskip, dif_pos, if_neg, not_false_iff, hfe]
    apply ih
    simp only [crawled, List.length_append, List.length_cons, List.length_nil]
    omega
  | case4 crawledUrls pages errors currentUrl currentDepth rest hlt hskip crawled body hfb
      page newLinks appended ih =>
    rw [crawl_loop]
    simp only [hlt, hskip, dif_pos, if_neg, not_false_iff, hfb]
    apply ih
    simp only [crawled, List.length_append, List.length_cons, List.length_nil]
    omega
  | case5 crawledUrls pages errors currentUrl currentDepth rest hlt =>
    rw [crawl_loop]
    simp only [hlt, dif_neg, not_false_iff]
    exact hlen

/-- Every page recorded by the loop comes from a frontier entry whose depth
is at most `max_depth`. -/
theorem crawl_loop_pages_depth_le {α : Type} (fetch : Chars → Except Chars Chars)
    (analyze : Chars → Chars → α) (parseHrefs : Chars → List Chars)
    (baseDomain : Chars) (maxPages maxDepth : Nat) (crawledUrls : List Chars)
    (toCrawl : List (Chars × Nat)) (pages : List (PageRecord α))
    (errors : List Chars) (hp : ∀ pg ∈ pages, pg.originDepth ≤ maxDepth) :
    ∀ pg ∈ (crawl_loop fetch analyze parseHrefs baseDomain maxPages maxDepth
      crawledUrls toCrawl pages errors).pages, pg.originDepth ≤ maxDepth := by
  induction crawledUrls, toCrawl, pages, errors using
      crawl_loop.induct fetch analyze parseHrefs baseDomain maxPages maxDepth with
  | case1 crawledUrls pages errors =>
    rw [crawl_loop]
    exact hp
  | case2 crawledUrls pages errors currentUrl currentDepth rest hlt hskip ih =>
    rw [crawl_loop]
    simp only [hlt, hskip, dif_pos, if_pos]
    exact ih hp
  | case3 crawledUrls pages errors currentUrl currentDepth rest hlt hskip crawled e hfe ih =>
    rw [crawl_loop]
    simp only [hlt, hskip, dif_pos, if_neg, not_false_iff, hfe]
    exact ih hp
  | case4 crawledUrls pages errors currentUrl currentDepth rest hlt hskip crawled body hfb
      page newLinks appended ih =>
    rw [crawl_loop]
    simp only [hlt, hskip, dif_pos, if_neg, not_false_iff, hfb]
    apply ih
    intro pg hpg
    rcases List.mem_append.mp hpg with h1 | h2
    · exact hp pg h1
    · have hpe : pg = page := by simpa using h2
      rw [hpe]
      simp only [page]
      push_neg at hskip
      exact hskip.2
  | case5 crawledUrls pages errors currentUrl currentDepth rest hlt =>
    rw [crawl_loop]
    simp only [hlt, dif_neg, not_false_iff]
    exact hp

/-- FIFO frontier discipline: the sequence of dequeued entries followed by
the remaining frontier is the initial frontier followed by the entries
enqueued during the run, i.e. the frontier is consumed front to back while
discovered links are appended at the back. -/
theorem crawl_loop_fifo {α : Type} (fetch : Chars → Except Chars Chars)
    (analyze : Chars → Chars → α) (parseHrefs : Chars → List Chars)
    (baseDomain : Chars) (maxPages maxDepth : Nat) (crawledUrls : List Chars)
    (toCrawl : List (Chars × Nat)) (pages : List (PageRecord α))
    (errors : List Chars) :
    (crawl_loop fetch analyze parseHrefs baseDomain maxPages maxDepth
      crawledUrls toCrawl pages errors).trace ++
    (crawl_loop fetch analyze parseHrefs baseDomain maxPages maxDepth
      crawledUrls toCrawl pages errors).finalQueue =
    toCrawl ++ (crawl_loop fetch analyze parseHrefs baseDomain maxPages maxDepth
      crawledUrls toCrawl pages errors).enq := by
  induction crawledUrls, toCrawl, pages, errors using
      crawl_loop.induct fetch analyze parseHrefs baseDomain maxPages maxDepth with
  | case1 crawledUrls pages errors =>
    rw [crawl_loop]
  | case2 crawledUrls pages errors currentUrl currentDepth rest hlt hskip ih =>
    rw [crawl_loop]
    simp only [hlt, hskip, dif_pos, if_pos, List.cons_append, List.append_assoc] at ih ⊢
    rw [ih]
  | case3 crawledUrls pages errors currentUrl currentDepth rest hlt hskip crawled e hfe ih =>
    rw [crawl_loop]
    simp only [hlt, hskip, dif_pos, if_neg, not_false_iff, hfe, List.cons_append,
      List.append_assoc] at ih ⊢
    rw [ih]
  | case4 crawledUrls pages errors currentUrl currentDepth rest hlt hskip crawled body hfb
      page newLinks appended ih =>
    rw [crawl_loop]
    simp only [crawled, page, newLinks, appended, dite_eq_ite, hlt, hskip, dif_pos,
      if_neg, not_false_iff, hfb, List.cons_append, List.append_assoc] at ih ⊢
    rw [ih]
  | case5 crawledUrls pages errors currentUrl currentDepth rest hlt =>
    rw [crawl_loop]
    simp only [hlt, dif_neg, not_false_iff, List.nil_append, List.append_nil]

/-- Every dequeued entry's depth is bounded below by any lower bound of the
current frontier's depths. -/
theorem crawl_loop_trace_lb {α : Type} (fetch : Chars → Except Chars Chars)
    (analyze : Chars → Chars → α) (parseHrefs : Chars → List Chars)
    (baseDomain : Chars) (maxPages maxDepth : Nat) (d0 : Nat)
    (crawledUrls : List Chars) (toCrawl : List (Chars × Nat))
    (pages : List (PageRecord α)) (errors : List Chars)
    (hlb : ∀ e ∈ toCrawl, d0 ≤ e.2) :
    ∀ t ∈ (crawl_loop fetch analyze parseHrefs baseDomain maxPages maxDepth
      crawledUrls toCrawl pages errors).trace, d0 ≤ t.2 := by
  induction crawledUrls, toCrawl, pages, errors using
      crawl_loop.induct fetch analyze parseHrefs baseDomain maxPages maxDepth with
  | case1 crawledUrls pages errors =>
    rw [crawl_loop]
    intro t ht
    simp at ht
  | case2 crawledUrls pages errors currentUrl currentDepth rest hlt hskip ih =>
    rw [crawl_loop]
    simp only [hlt, hskip, dif_pos, if_pos]
    intro t ht
    rcases List.mem_cons.mp ht with h1 | h2
    · rw [h1]
      exact hlb _ (List.mem_cons_self _ _)
    · exact ih (fun e he => hlb e (List.mem_cons_of_mem _ he)) t h2
  | case3 crawledUrls pages errors currentUrl currentDepth rest hlt hskip crawled e hfe ih =>
    rw [crawl_loop]
    simp only [hlt, hskip, dif_pos, if_neg, not_false_iff, hfe]
    intro t ht
    rcases List.mem_cons.mp ht with h1 | h2
    · rw [h1]
      exact hlb _ (List.mem_cons_self _ _)
    · exact ih (fun e he => hlb e (List.mem_cons_of_mem _ he)) t h2
  | case4 crawledUrls pages errors currentUrl currentDepth rest hlt hskip crawled body hfb
      page newLinks appended ih =>
    rw [crawl_loop]
    simp only [hlt, hskip, dif_pos, if_neg, not_false_iff, hfb]
    intro t ht
    rcases List.mem_cons.mp ht with h1 | h2
    · rw [h1]
      exact hlb _ (List.mem_cons_self _ _)
    · refine ih ?_ t h2
      intro e he
      rcases List.mem_append.mp he with he1 | he2
      · exact hlb e (List.mem_cons_of_mem _ he1)
      · have : e.2 = currentDepth + 1 := by
          rcases List.mem_map.mp he2 with ⟨l, _, rfl⟩
          rfl
        rw [this]
        have := hlb _ (List.mem_cons_self _ _)
        omega
  | case5 crawledUrls pages errors currentUrl currentDepth rest hlt =>
    rw [crawl_loop]
    intro t ht
    simp [hlt] at ht

/-- Breadth-first dequeue order: if the frontier's depths are pairwise
non-decreasing and pairwise within one of each other, the dequeue trace's
depths are pairwise non-decreasing. -/
theorem crawl_loop_trace_sorted {α : Type} (fetch : Chars → Except Chars Chars)
    (analyze : Chars → Chars → α) (parseHrefs : Chars → List Chars)
    (baseDomain : Chars) (maxPages maxDepth : Nat) (crawledUrls : List Chars)
    (toCrawl : List (Chars × Nat)) (pages : List (PageRecord α))
    (errors : List Chars)
    (hpw : List.Pairwise (fun a b : Chars × Nat => a.2 ≤ b.2) toCrawl)
    (hspan : ∀ a ∈ toCrawl, ∀ b ∈ toCrawl, a.2 ≤ b.2 + 1) :
    List.Pairwise (fun a b : Chars × Nat => a.2 ≤ b.2)
      (crawl_loop fetch analyze parseHrefs baseDomain maxPages maxDepth
        crawledUrls toCrawl pages errors).trace := by
  induction crawledUrls, toCrawl, pages, errors using
      crawl_loop.induct fetch analyze parseHrefs baseDomain maxPages maxDepth with
  | case1 crawledUrls pages errors =>
    rw [crawl_loop]
    exact List.Pairwise.nil
  | case2 crawledUrls pages errors currentUrl currentDepth rest hlt hskip ih =>
    rw [crawl_loop]
    simp only [hlt, hskip, dif_pos, if_pos]
    refine List.Pairwise.cons ?_ ?_
    · intro t ht
      refine crawl_loop_trace_lb fetch analyze parseHrefs baseDomain maxPages
        maxDepth currentDepth crawledUrls rest pages errors ?_ t ht
      intro e he
      exact List.rel_of_pairwise_cons hpw he
    · exact ih (List.Pairwise.of_cons hpw)
        (fun a ha b hb => hspan a (List.mem_cons_of_mem _ ha) b (List.mem_cons_of_mem _ hb))
  | case3 crawledUrls pages errors currentUrl currentDepth rest hlt hskip crawled e hfe ih =>
    rw [crawl_loop]
    simp only [hlt, hskip, dif_pos, if_neg, not_false_iff, hfe]
    refine List.Pairwise.cons ?_ ?_
    · intro t ht
      refine crawl_loop_trace_lb fetch analyze parseHrefs baseDomain maxPages
        maxDepth currentDepth crawled rest pages (errors ++ [failMsg currentUrl e]) ?_ t ht
      intro x hx
      exact List.rel_of_pairwise_cons hpw hx
    · exact ih (List.Pairwise.of_cons hpw)
        (fun a ha b hb => hspan a (List.mem_cons_of_mem _ ha) b (List.mem_cons_of_mem _ hb))
  | case4 crawledUrls pages errors currentUrl currentDepth rest hlt hskip crawled body hfb
      page newLinks appended ih =>
    rw [crawl_loop]
    simp only [hlt, hskip, dif_pos, if_neg, not_false_iff, hfb]
    have happd : ∀ e ∈ appended, e.2 = currentDepth + 1 := by
      intro e he
      rcases List.mem_map.mp he with ⟨l, _, rfl⟩
      rfl
    have hrest_lb : ∀ e ∈ rest, currentDepth ≤ e.2 :=
      fun e he => List.rel_of_pairwise_cons hpw he
    have hq_lb : ∀ e ∈ rest ++ appended, currentDepth ≤ e.2 := by
      intro e he
      rcases List.mem_append.mp he with h1 | h2
      · exact hrest_lb e h1
      · rw [happd e h2]
        omega
    refine List.Pairwise.cons ?_ ?_
    · intro t ht
      exact crawl_loop_trace_lb fetch analyze parseHrefs baseDomain maxPages
        maxDepth currentDepth crawled (rest ++ appended) (pages ++ [page]) errors
        hq_lb t ht
    · refine ih ?_ ?_
      · rw [List.pairwise_append]
        refine ⟨List.Pairwise.of_cons hpw, ?_, ?_⟩
        · have hconst : ∀ (l : List (Chars × Nat)), (∀ e ∈ l, e.2 = currentDepth + 1) →
              List.Pairwise (fun a b : Chars × Nat => a.2 ≤ b.2) l := by
            intro l
            induction l with
            | nil => exact fun _ => List.Pairwise.nil
            | cons x xs ihl =>
              intro hl
              refine List.Pairwise.cons (fun b hb => ?_)
                (ihl fun e he => hl e (List.mem_cons_of_mem _ he))
              rw [hl x (List.mem_cons_self _ _), hl b (List.mem_cons_of_mem _ hb)]
          exact hconst appended happd
        · intro a ha b hb
          rw [happd b hb]
          have := hspan a (List.mem_cons_of_mem _ ha) _ (List.mem_cons_self _ _)
          omega
      · intro a ha b hb
        rcases List.mem_append.mp ha with ha1 | ha2 <;>
          rcases List.mem_append.mp hb with hb1 | hb2
        · exact hspan a (List.mem_cons_of_mem _ ha1) b (List.mem_cons_of_mem _ hb1)
        · rw [happd b hb2]
          have := hspan a (List.mem_cons_of_mem _ ha1) _ (List.mem_cons_self _ _)
          omega
        · rw [happd a ha2]
          have := hrest_lb b hb1
          omega
        · rw [happd a ha2, happd b hb2]
          omega
  | case5 crawledUrls pages errors currentUrl currentDepth rest hlt =>
    rw [crawl_loop]
    simp only [hlt, dif_neg, not_false_iff]
    exact List.Pairwise.nil

/-- The visited set stays duplicate-free: a URL is added only after the
membership check. -/
theorem crawl_loop_nodup {α : Type} (fetch : Chars → Except Chars Chars)
    (analyze : Chars → Chars → α) (parseHrefs : Chars → List Chars)
    (baseDomain : Chars) (maxPages maxDepth : Nat) (crawledUrls : List Chars)
    (toCrawl : List (Chars × Nat)) (pages : List (PageRecord α))
    (errors : List Chars) (hnd : crawledUrls.Nodup) :
    (crawl_loop fetch analyze parseHrefs baseDomain maxPages maxDepth
      crawledUrls toCrawl pages errors).crawled_urls.Nodup := by
  induction crawledUrls, toCrawl, pages, errors using
      crawl_loop.induct fetch analyze parseHrefs baseDomain maxPages maxDepth with
  | case1 crawledUrls pages errors =>
    rw [crawl_loop]
    exact hnd
  | case2 crawledUrls pages errors currentUrl currentDepth rest hlt hskip ih =>
    rw [crawl_loop]
    simp only [hlt, hskip, dif_pos, if_pos]
    exact ih hnd
  | case3 crawledUrls pages errors currentUrl currentDepth rest hlt hskip crawled e hfe ih =>
    rw [crawl_loop]
    simp only [hlt, hskip, dif_pos, if_neg, not_false_iff, hfe]
    apply ih
    push_neg at hskip
    simp only [crawled, List.nodup_append, List.nodup_cons, List.nodup_nil]
    exact ⟨hnd, by simp, by simpa using hskip.1⟩
  | case4 crawledUrls pages errors currentUrl currentDepth rest hlt hskip crawled body hfb
      page newLinks appended ih =>
    rw [crawl_loop]
    simp only [hlt, hskip, dif_pos, if_neg, not_false_iff, hfb]
    apply ih
    push_neg at hskip
    simp only [crawled, List.nodup_append, List.nodup_cons, List.nodup_nil]
    exact ⟨hnd, by simp, by simpa using hskip.1⟩
  | case5 crawledUrls pages errors currentUrl currentDepth rest hlt =>
    rw [crawl_loop]
    simp only [hlt, dif_neg, not_false_iff]
    exact hnd

/-- Closure of the visited set: every visited URL either was already
visited, was on the frontier, or is an output of the link extractor for the
crawl's base domain. -/
theorem crawl_loop_visited_closure {α : Type} (Q : Chars → Prop)
    (fetch : Chars → Except Chars Chars)
    (analyze : Chars → Chars → α) (parseHrefs : Chars → List Chars)
    (baseDomain : Chars) (maxPages maxDepth : Nat) (crawledUrls : List Chars)
    (toCrawl : List (Chars × Nat)) (pages : List (PageRecord α))
    (errors : List Chars)
    (hq1 : ∀ u ∈ crawledUrls, Q u) (hq2 : ∀ e ∈ toCrawl, Q e.1)
    (hq3 : ∀ base body l, l ∈ extract_internal_links (parseHrefs body) base baseDomain → Q l) :
    ∀ u ∈ (crawl_loop fetch analyze parseHrefs baseDomain maxPages maxDepth
      crawledUrls toCrawl pages errors).crawled_urls, Q u := by
  induction crawledUrls, toCrawl, pages, errors using
      crawl_loop.induct fetch analyze parseHrefs baseDomain maxPages maxDepth with
  | case1 crawledUrls pages errors =>
    rw [crawl_loop]
    exact hq1
  | case2 crawledUrls pages errors currentUrl currentDepth rest hlt hskip ih =>
    rw [crawl_loop]
    simp only [hlt, hskip, dif_pos, if_pos]
    exact ih hq1 (fun e he => hq2 e (List.mem_cons_of_mem _ he))
  | case3 crawledUrls pages errors currentUrl currentDepth rest hlt hskip crawled e hfe ih =>
    rw [crawl_loop]
    simp only [hlt, hskip, dif_pos, if_neg, not_false_iff, hfe]
    apply ih
    · intro u hu
      rcases List.mem_append.mp hu with h1 | h2
      · exact hq1 u h1
      · rw [List.mem_singleton.mp h2]
        exact hq2 _ (List.mem_cons_self _ _)
    · exact fun e he => hq2 e (List.mem_cons_of_mem _ he)
  | case4 crawledUrls pages errors currentUrl currentDepth rest hlt hskip crawled body hfb
      page newLinks appended ih =>
    rw [crawl_loop]
    simp only [hlt, hskip, dif_pos, if_neg, not_false_iff, hfb]
    apply ih
    · intro u hu
      rcases List.mem_append.mp hu with h1 | h2
      · exact hq1 u h1
      · rw [List.mem_singleton.mp h2]
        exact hq2 _ (List.mem_cons_self _ _)
    · intro e he
      rcases List.mem_append.mp he with h1 | h2
      · exact hq2 e (List.mem_cons_of_mem _ h1)
      · rcases List.mem_map.mp h2 with ⟨l, hl, rfl⟩
        have hl2 : l ∈ extract_internal_links (parseHrefs body) currentUrl baseDomain := by
          simp only [newLinks] at hl
          split at hl
          · exact (List.mem_filter.mp hl).1
          · simp at hl
        exact hq3 _ _ _ hl2
  | case5 crawledUrls pages errors currentUrl currentDepth rest hlt =>
    rw [crawl_loop]
    simp only [hlt, dif_neg, not_false_iff]
    exact hq1

/-- Per-URL failure recording: every visited URL whose fetch fails has its
failure message in the error list. -/
theorem crawl_loop_errors_recorded {α : Type} (fetch : Chars → Except Chars Chars)
    (analyze : Chars → Chars → α) (parseHrefs : Chars → List Chars)
    (baseDomain : Chars) (maxPages maxDepth : Nat) (crawledUrls : List Chars)
    (toCrawl : List (Chars × Nat)) (pages : List (PageRecord α))
    (errors : List Chars)
    (herr : ∀ u e, fetch u = .error e → u ∈ crawledUrls → failMsg u e ∈ errors) :
    ∀ u e, fetch u = .error e →
      u ∈ (crawl_loop fetch analyze parseHrefs baseDomain maxPages maxDepth
        crawledUrls toCrawl pages errors).crawled_urls →
      failMsg u e ∈ (crawl_loop fetch analyze parseHrefs baseDomain maxPages maxDepth
        crawledUrls toCrawl pages errors).errors := by
  induction crawledUrls, toCrawl, pages, errors using
      crawl_loop.induct fetch analyze parseHrefs baseDomain maxPages maxDepth with
  | case1 crawledUrls pages errors =>
    rw [crawl_loop]
    exact herr
  | case2 crawledUrls pages errors currentUrl currentDepth rest hlt hskip ih =>
    rw [crawl_loop]
    simp only [hlt, hskip, dif_pos, if_pos]
    exact ih herr
  | case3 crawledUrls pages errors currentUrl currentDepth rest hlt hskip crawled e hfe ih =>
    rw [crawl_loop]
    simp only [hlt, hskip, dif_pos, if_neg, not_false_iff, hfe]
    apply ih
    intro u e2 hu hmem
    rcases List.mem_append.mp hmem with h1 | h2
    · exact List.mem_append_left _ (herr u e2 hu h1)
    · rw [List.mem_singleton.mp h2] at hu ⊢
      rw [hfe] at hu
      have : e = e2 := by injection hu
      rw [← this]
      exact List.mem_append_right _ (List.mem_singleton.mpr rfl)
  | case4 crawledUrls pages errors currentUrl currentDepth rest hlt hskip crawled body hfb
      page newLinks appended ih =>
    rw [crawl_loop]
    simp only [hlt, hskip, dif_pos, if_neg, not_false_iff, hfb]
    apply ih
    intro u e2 hu hmem
    rcases List.mem_append.mp hmem with h1 | h2
    · exact herr u e2 hu h1
    · rw [List.mem_singleton.mp h2] at hu
      rw [hfb] at hu
      exact absurd hu (by simp)
  | case5 crawledUrls pages errors currentUrl currentDepth rest hlt =>
    rw [crawl_loop]
    simp only [hlt, dif_neg, not_false_iff]
    exact herr

/-- Every recorded page was fetched successfully. -/
theorem crawl_loop_pages_fetched {α : Type} (fetch : Chars → Except Chars Chars)
    (analyze : Chars → Chars → α) (parseHrefs : Chars → List Chars)
    (baseDomain : Chars) (maxPages maxDepth : Nat) (crawledUrls : List Chars)
    (toCrawl : List (Chars × Nat)) (pages : List (PageRecord α))
    (errors : List Chars)
    (hp : ∀ pg ∈ pages, ∃ body, fetch pg.url = .ok body) :
    ∀ pg ∈ (crawl_loop fetch analyze parseHrefs baseDomain maxPages maxDepth
      crawledUrls toCrawl pages errors).pages, ∃ body, fetch pg.url = .ok body := by
  induction crawledUrls, toCrawl, pages, errors using
      crawl_loop.induct fetch analyze parseHrefs baseDomain maxPages maxDepth with
  | case1 crawledUrls pages errors =>
    rw [crawl_loop]
    exact hp
  | case2 crawledUrls pages errors currentUrl currentDepth rest hlt hskip ih =>
    rw [crawl_loop]
    simp only [hlt, hskip, dif_pos, if_pos]
    exact ih hp
  | case3 crawledUrls pages errors currentUrl currentDepth rest hlt hskip crawled e hfe ih =>
    rw [crawl_loop]
    simp only [hlt, hskip, dif_pos, if_neg, not_false_iff, hfe]
    exact ih hp
  | case4 crawledUrls pages errors currentUrl currentDepth rest hlt hskip crawled body hfb
      page newLinks appended ih =>
    rw [crawl_loop]
    simp only [hlt, hskip, dif_pos, if_neg, not_false_iff, hfb]
    apply ih
    intro pg hpg
    rcases List.mem_append.mp hpg with h1 | h2
    · exact hp pg h1
    · have hpe : pg = page := by simpa using h2
      rw [hpe]
      exact ⟨body, hfb⟩
  | case5 crawledUrls pages errors currentUrl currentDepth rest hlt =>
    rw [crawl_loop]
    simp only [hlt, dif_neg, not_false_iff]
    exact hp

/-! ## Character-level facts about the `urllib` model (C5, C6, C9) -/

/-- Netloc characters never include the delimiters `'/'`, `'?'`, `'#'`. -/
theorem urlsplit_netloc_chars (u d : Chars) :
    ∀ c ∈ (urlsplit u d).netloc, netlocDelim c = false := by
  simp only [urlsplit, splitnetloc]
  split
  · intro c hc
    have := List.mem_takeWhile_imp hc
    simpa using this
  · intro c hc
    simp at hc

/-- Path characters never include `'?'` or `'#'` (both are split off
first). -/
theorem urlsplit_path_chars (u d : Chars) :
    ∀ c ∈ (urlsplit u d).path, c ≠ '?' ∧ c ≠ '#' := by
  simp only [urlsplit, splitOnFirst]
  intro c hc
  constructor
  · have := List.mem_takeWhile_imp hc
    simpa using this
  · have hc2 := (List.takeWhile_sublist _).subset hc
    have := List.mem_takeWhile_imp hc2
    simpa using this

/-- A scheme character comes from the default scheme or is the lowercase of
a character of `scheme_chars`. -/
theorem splitScheme_scheme_chars (u d : Chars) :
    ∀ c ∈ (splitScheme u d).1, c ∈ d ∨ ∃ c0 ∈ schemeChars, c = c0.toLower := by
  simp only [splitScheme]
  split
  · exact fun c hc => Or.inl hc
  · split
    · exact fun c hc => Or.inl hc
    · split
      · rename_i hcond
        intro c hc
        rcases List.mem_map.mp hc with ⟨c0, hc0, rfl⟩
        refine Or.inr ⟨c0, ?_, rfl⟩
        have hall := (Bool.and_eq_true _ _).mp hcond |>.2
        have := List.all_eq_true.mp hall c0 hc0
        simpa [List.contains_iff_exists_mem_beq] using this
      · exact fun c hc => Or.inl hc

/-- `urlparse` does not change the netloc of `urlsplit`. -/
theorem urlparse_netloc_eq (u d : Chars) :
    (urlparse u d).netloc = (urlsplit u d).netloc := by
  simp only [urlparse]
  split <;> rfl

/-- `urlparse` does not change the scheme of `urlsplit`. -/
theorem urlparse_scheme_eq (u d : Chars) :
    (urlparse u d).scheme = (urlsplit u d).scheme := by
  simp only [urlparse]
  split <;> rfl

/-- The path component of `_splitparams` is made of characters of the
input path. -/
theorem splitparams_fst_subset (p : Chars) : ∀ c ∈ (splitparams p).1, c ∈ p := by
  simp only [splitparams]
  split
  · split
    · intro c hc
      rcases List.mem_append.mp hc with h1 | h2
      · exact List.take_subset _ _ h1
      · have h3 := (List.takeWhile_sublist _).subset h2
        have h4 := List.mem_reverse.mp h3
        have h5 := (List.takeWhile_sublist _).subset h4
        exact List.mem_reverse.mp h5
    · exact fun c hc => hc
  · split
    · exact fun c hc => (List.takeWhile_sublist _).subset hc
    · exact fun c hc => hc

/-- The path of `urlparse` is made of characters of the path of
`urlsplit`. -/
theorem urlparse_path_subset (u d : Chars) :
    ∀ c ∈ (urlparse u d).path, c ∈ (urlsplit u d).path := by
  simp only [urlparse]
  split
  · exact fun c hc => splitparams_fst_subset _ c hc
  · exact fun c hc => hc

/-- Lowercasing a `scheme_chars` character never yields `'?'` or `'#'`. -/
theorem schemeChars_toLower_good :
    ∀ c0 ∈ schemeChars, c0.toLower ≠ '?' ∧ c0.toLower ≠ '#' := by decide

/-- No character of a rebuilt `f"{scheme}://{netloc}{path}"` URL (parsed
with an empty default scheme) is `'?'` or `'#'`: normalized URLs carry no
query and no fragment. -/
theorem clean_url_chars (u : Chars) :
    ∀ c ∈ (urlparse u []).scheme ++ "://".toList ++ (urlparse u []).netloc ++
      (urlparse u []).path, c ≠ '?' ∧ c ≠ '#' := by
  intro c hc
  rcases List.mem_append.mp hc with hc1 | hcp
  · rcases List.mem_append.mp hc1 with hc2 | hcn
    · rcases List.mem_append.mp hc2 with hcs | hcsep
      · rw [urlparse_scheme_eq] at hcs
        have hsch : (urlsplit u []).scheme = (splitScheme (removeUnsafe u) (removeUnsafe [])).1 := rfl
        rw [hsch] at hcs
        rcases splitScheme_scheme_chars _ _ c hcs with h | ⟨c0, hc0, rfl⟩
        · simp [removeUnsafe] at h
        · exact schemeChars_toLower_good c0 hc0
      · have hcv : c = ':' ∨ c = '/' ∨ c = '/' := by simpa using hcsep
        rcases hcv with rfl | rfl | rfl <;> exact ⟨by decide, by decide⟩
    · rw [urlparse_netloc_eq] at hcn
      have := urlsplit_netloc_chars u [] c hcn
      simp only [netlocDelim] at this
      constructor <;> { intro h; subst h; simp at this }
  · have := urlsplit_path_chars u [] c (urlparse_path_subset u [] c hcp)
    exact this

/-- When a URL carries its own (valid) scheme, the default scheme passed to
`splitScheme` is irrelevant. -/
theorem splitScheme_default_indep (u d : Chars)
    (h : (splitScheme u []).1 ≠ []) : splitScheme u d = splitScheme u [] := by
  revert h
  simp only [splitScheme]
  split
  · intro h
    exact absurd rfl h
  · split
    · intro h
      exact absurd rfl h
    · split
      · intro _
        rfl
      · intro h
        exact absurd rfl h

/-- When a URL carries its own scheme, the default scheme passed to
`urlsplit` is irrelevant. -/
theorem urlsplit_default_indep (u d : Chars)
    (h : (urlsplit u []).scheme ≠ []) : urlsplit u d = urlsplit u [] := by
  have h2 : (splitScheme (removeUnsafe u) []).1 ≠ [] := h
  have h3 := splitScheme_default_indep (removeUnsafe u) (removeUnsafe d) h2
  simp only [urlsplit, h3]
  rfl

/-- When a URL carries its own scheme, the default scheme passed to
`urlparse` is irrelevant. -/
theorem urlparse_default_indep (u d : Chars)
    (h : (urlparse u []).scheme ≠ []) : urlparse u d = urlparse u [] := by
  rw [urlparse_scheme_eq] at h
  unfold urlparse
  rw [urlsplit_default_indep u d h]

/-- `urljoin` returns the url unchanged whenever the url's own scheme is
outside `uses_relative`. -/
theorem urljoin_of_scheme_notin (base url : Chars)
    (hs : (urlparse url []).scheme ∉ usesRelative) : urljoin base url = url := by
  by_cases hb : base = []
  · simp [urljoin, hb]
  · by_cases hu : url = []
    · exfalso
      apply hs
      rw [hu]
      decide
    · have hsch : (urlparse url []).scheme ≠ [] := by
        intro h0
        apply hs
        rw [h0]
        decide
      unfold urljoin
      rw [if_neg hb, if_neg hu]
      have hr := urlparse_default_indep url (urlparse base []).scheme hsch
      simp only [hr]
      rw [if_pos (Or.inr hs)]

/-- None of the malformed schemes is in `uses_relative`. -/
theorem badSchemes_not_relative : ∀ s ∈ badSchemes, s ∉ usesRelative := by decide

/-- The empty URL parses to an empty scheme, which is not a malformed
scheme. -/
theorem nil_scheme_not_bad : (urlparse ([] : Chars) []).scheme ∉ badSchemes := by
  decide

/-- A malformed href (empty, or with scheme `javascript:`/`mailto:`/`tel:`
whose own parsed host is not the base domain) contributes nothing to the
extractor's output. -/
theorem extractStep_drop (baseUrl baseDomain href : Chars) (acc : List Chars)
    (h : href = [] ∨
      ((urlparse href []).scheme ∈ badSchemes ∧
        (urlparse href []).netloc ≠ baseDomain)) :
    extractStep baseUrl baseDomain acc href = acc := by
  rcases h with rfl | ⟨hbs, hnd⟩
  · rfl
  · unfold extractStep
    have hne : href ≠ [] := by
      intro h0
      rw [h0] at hbs
      exact nil_scheme_not_bad hbs
    rw [if_neg hne]
    have hj : urljoin baseUrl href = href :=
      urljoin_of_scheme_notin _ _ (fun hmem => badSchemes_not_relative _ hbs hmem)
    simp only [hj]
    rw [if_neg hnd]

/-- One extractor step preserves the output invariant: no duplicates, and
every entry is `scheme://base_domain/path`-shaped with no `'?'`/`'#'`. -/
theorem extractStep_inv (baseUrl baseDomain href : Chars) (acc : List Chars)
    (h1 : acc.Nodup)
    (h2 : ∀ l ∈ acc, ('?' ∉ l ∧ '#' ∉ l) ∧
      ∃ s p, l = s ++ "://".toList ++ baseDomain ++ p) :
    (extractStep baseUrl baseDomain acc href).Nodup ∧
    ∀ l ∈ extractStep baseUrl baseDomain acc href,
      ('?' ∉ l ∧ '#' ∉ l) ∧ ∃ s p, l = s ++ "://".toList ++ baseDomain ++ p := by
  simp only [extractStep]
  split
  · exact ⟨h1, h2⟩
  · split
    · rename_i hdom
      split
      · exact ⟨h1, h2⟩
      · rename_i hnotmem
        constructor
        · simp only [List.nodup_append, List.nodup_cons, List.not_mem_nil,
            not_false_iff, List.nodup_nil, true_and]
          exact ⟨h1, by simpa using hnotmem⟩
        · intro l hl
          rcases List.mem_append.mp hl with hla | hlc
          · exact h2 l hla
          · rw [List.mem_singleton.mp hlc]
            refine ⟨?_, ?_⟩
            · constructor
              · intro hq
                exact (clean_url_chars (urljoin baseUrl href) _ hq).1 rfl
              · intro hq
                exact (clean_url_chars (urljoin baseUrl href) _ hq).2 rfl
            · rw [← hdom]
              exact ⟨(urlparse (urljoin baseUrl href) []).scheme,
                (urlparse (urljoin baseUrl href) []).path, rfl⟩
    · exact ⟨h1, h2⟩

/-- Extractor output invariant, lifted over the fold. -/
theorem extract_foldl_inv (baseUrl baseDomain : Chars) (hrefs : List Chars) :
    ∀ acc : List Chars, acc.Nodup →
    (∀ l ∈ acc, ('?' ∉ l ∧ '#' ∉ l) ∧
      ∃ s p, l = s ++ "://".toList ++ baseDomain ++ p) →
    (hrefs.foldl (extractStep baseUrl baseDomain) acc).Nodup ∧
    ∀ l ∈ hrefs.foldl (extractStep baseUrl baseDomain) acc,
      ('?' ∉ l ∧ '#' ∉ l) ∧ ∃ s p, l = s ++ "://".toList ++ baseDomain ++ p := by
  induction hrefs with
  | nil => exact fun acc h1 h2 => ⟨h1, h2⟩
  | cons href rest ih =>
    intro acc h1 h2
    rw [List.foldl_cons]
    have hstep := extractStep_inv baseUrl baseDomain href acc h1 h2
    exact ih _ hstep.1 hstep.2

/-- The extractor's output has no duplicates, and every entry is a
`scheme://base_domain/path`-shaped URL with no query and no fragment. -/
theorem extract_internal_links_spec (hrefs : List Chars)
    (baseUrl baseDomain : Chars) :
    (extract_internal_links hrefs baseUrl baseDomain).Nodup ∧
    ∀ l ∈ extract_internal_links hrefs baseUrl baseDomain,
      ('?' ∉ l ∧ '#' ∉ l) ∧ ∃ s p, l = s ++ "://".toList ++ baseDomain ++ p := by
  unfold extract_internal_links
  exact extract_foldl_inv baseUrl baseDomain hrefs [] List.nodup_nil (by simp)

/-- **C1.** For every crawl (any seed URL, any positive `max_pages`, any
`max_depth`, any fetch results), the returned report's `pages_crawled` is at
most `max_pages`, and every recorded page summary was produced from a
frontier entry whose depth is at most `max_depth`. -/
theorem claim_c1_budgets {α : Type} (fetch : Chars → Except Chars Chars)
    (analyze : Chars → Chars → α) (parseHrefs : Chars → List Chars)
    (url : Chars) (maxPages depth : Nat) (hpos : 0 < maxPages) :
    (crawl_site fetch analyze parseHrefs url maxPages depth).1.pages_crawled ≤
      maxPages ∧
    ∀ pg ∈ (crawl_site fetch analyze parseHrefs url maxPages depth).2.pages,
      pg.originDepth ≤ depth := by
  constructor
  · simp only [crawl_site]
    exact crawl_loop_length_le fetch analyze parseHrefs _ maxPages depth
      [] [(url, 0)] [] [] (by simp)
  · simp only [crawl_site]
    exact crawl_loop_pages_depth_le fetch analyze parseHrefs _ maxPages depth
      [] [(url, 0)] [] [] (by simp)

/-- Witness for C1 at a concrete crawl (seed plus one child, budget 10,
depth 3). -/
theorem claim_c1_witness :
    (crawl_site exFetchChildFails exAnalyze exHrefsChild exSeed 10 3).1.pages_crawled ≤ 10 ∧
    ∀ pg ∈ (crawl_site exFetchChildFails exAnalyze exHrefsChild exSeed 10 3).2.pages,
      pg.originDepth ≤ 3 :=
  claim_c1_budgets exFetchChildFails exAnalyze exHrefsChild exSeed 10 3 (by decide)

/-- **C2.** Breadth-first order: the depths of the dequeued frontier
entries are non-decreasing along the dequeue trace (so a URL discovered at
a strictly smaller depth is dequeued strictly earlier), and the frontier is
FIFO: the dequeue trace followed by the remaining frontier equals the seed
entry followed by the enqueued entries in append (discovery) order. -/
theorem claim_c2_breadth_first {α : Type} (fetch : Chars → Except Chars Chars)
    (analyze : Chars → Chars → α) (parseHrefs : Chars → List Chars)
    (url : Chars) (maxPages depth : Nat) :
    List.Pairwise (fun a b : Chars × Nat => a.2 ≤ b.2)
      (crawl_site fetch analyze parseHrefs url maxPages depth).2.trace ∧
    (crawl_site fetch analyze parseHrefs url maxPages depth).2.trace ++
      (crawl_site fetch analyze parseHrefs url maxPages depth).2.finalQueue =
    [(url, 0)] ++ (crawl_site fetch analyze parseHrefs url maxPages depth).2.enq := by
  constructor
  · simp only [crawl_site]
    refine crawl_loop_trace_sorted fetch analyze parseHrefs _ maxPages depth
      [] [(url, 0)] [] [] ?_ ?_
    · simp
    · intro a ha b hb
      simp only [List.mem_singleton] at ha hb
      rw [ha, hb]
      omega
  · simp only [crawl_site]
    exact crawl_loop_fifo fetch analyze parseHrefs _ maxPages depth
      [] [(url, 0)] [] []

/-- **C5 (amended).** For every crawl, the visited set contains each URL at
most once, and every URL in it other than the seed is in normalized form
(no `'?'`, no `'#'`).  The seed itself is stored verbatim, so a seed with a
query string or fragment appears unnormalized (see the counterexample). -/
theorem claim_c5_visited_set {α : Type} (fetch : Chars → Except Chars Chars)
    (analyze : Chars → Chars → α) (parseHrefs : Chars → List Chars)
    (url : Chars) (maxPages depth : Nat) :
    (crawl_site fetch analyze parseHrefs url maxPages depth).2.crawled_urls.Nodup ∧
    ∀ u ∈ (crawl_site fetch analyze parseHrefs url maxPages depth).2.crawled_urls,
      u ≠ url → ('?' ∉ u ∧ '#' ∉ u) := by
  constructor
  · simp only [crawl_site]
    exact crawl_loop_nodup fetch analyze parseHrefs _ maxPages depth
      [] [(url, 0)] [] [] List.nodup_nil
  · simp only [crawl_site]
    intro u hu hne
    have hq := crawl_loop_visited_closure
      (fun v => v = url ∨ ('?' ∉ v ∧ '#' ∉ v)) fetch analyze parseHrefs
      (urlparse url []).netloc maxPages depth [] [(url, 0)] [] []
      (by simp) (by simp) ?_ u hu
    · rcases hq with h | h
      · exact absurd h hne
      · exact h
    · intro base body l hl
      exact Or.inr ((extract_internal_links_spec (parseHrefs body) base
        (urlparse url []).netloc).2 l hl).1

/-- Witness for C5 (amended) at a concrete crawl. -/
theorem claim_c5_witness :
    (crawl_site exFetchChildFails exAnalyze exHrefsChild exSeed 10 3).2.crawled_urls.Nodup ∧
    ∀ u ∈ (crawl_site exFetchChildFails exAnalyze exHrefsChild exSeed 10 3).2.crawled_urls,
      u ≠ exSeed → ('?' ∉ u ∧ '#' ∉ u) :=
  claim_c5_visited_set exFetchChildFails exAnalyze exHrefsChild exSeed 10 3

/-- **C6 (amended).** For every href list, base URL and non-empty base
domain: the extractor's output has no duplicates; every output URL is
`scheme://base_domain/path`-shaped (host exactly the base domain) with
fragment and query stripped; an empty href contributes nothing; and a
`javascript:`/`mailto:`/`tel:` href contributes nothing **unless** its own
parsed host equals the base domain (e.g. `tel://<base_domain>/x`, see the
counterexample). -/
theorem claim_c6_extractor (hrefs : List Chars) (baseUrl baseDomain : Chars)
    (hbd : baseDomain ≠ []) :
    ((extract_internal_links hrefs baseUrl baseDomain).Nodup ∧
     ∀ l ∈ extract_internal_links hrefs baseUrl baseDomain,
       ('?' ∉ l ∧ '#' ∉ l) ∧ ∃ s p, l = s ++ "://".toList ++ baseDomain ++ p) ∧
    ∀ acc href, (href = [] ∨
        ((urlparse href []).scheme ∈ badSchemes ∧
          (urlparse href []).netloc ≠ baseDomain)) →
      extractStep baseUrl baseDomain acc href = acc := by
  refine ⟨extract_internal_links_spec hrefs baseUrl baseDomain, ?_⟩
  intro acc href h
  exact extractStep_drop baseUrl baseDomain href acc h

/-- Witness for C6 (amended) at a concrete href list. -/
theorem claim_c6_witness :
    ((extract_internal_links
        ["/about?x=1#top".toList, "https://other.com/a".toList, "/about".toList,
         "mailto:a@b.c".toList, [], "contact".toList]
        "https://example.com/".toList "example.com".toList).Nodup ∧
     ∀ l ∈ extract_internal_links
        ["/about?x=1#top".toList, "https://other.com/a".toList, "/about".toList,
         "mailto:a@b.c".toList, [], "contact".toList]
        "https://example.com/".toList "example.com".toList,
       ('?' ∉ l ∧ '#' ∉ l) ∧
         ∃ s p, l = s ++ "://".toList ++ "example.com".toList ++ p) ∧
    ∀ acc href, (href = [] ∨
        ((urlparse href []).scheme ∈ badSchemes ∧
          (urlparse href []).netloc ≠ "example.com".toList)) →
      extractStep "https://example.com/".toList "example.com".toList acc href = acc :=
  claim_c6_extractor
    ["/about?x=1#top".toList, "https://other.com/a".toList, "/about".toList,
     "mailto:a@b.c".toList, [], "contact".toList]
    "https://example.com/".toList "example.com".toList (by decide)

/-- **C6 counterexample.** The claim as stated says no output entry arises
from a `tel:` href; but a `tel://example.com/foo` href on base domain
`example.com` survives `urljoin` verbatim (its scheme is outside
`uses_relative`), parses with host `example.com`, and is kept: the
extractor's output is exactly that `tel:` URL. -/
theorem claim_c6_counterexample :
    "tel://example.com/foo".toList.take 4 = "tel:".toList ∧
    extract_internal_links ["tel://example.com/foo".toList]
        "https://example.com/".toList "example.com".toList =
      ["tel://example.com/foo".toList] := by
  constructor
  · decide
  · decide

/-- **C5 counterexample.** The claim as stated covers seeds carrying a
query string; but the seed is inserted into the visited set verbatim
(`crawled_urls.add(current_url)` before any normalization), so crawling
`https://example.com/?q=1` leaves a URL with `'?'` in the visited set. -/
theorem claim_c5_counterexample :
    (crawl_site exFetchFailAll exAnalyze exHrefsChild exSeedQ 10 3).2.crawled_urls =
      [exSeedQ] ∧ '?' ∈ exSeedQ := by
  constructor
  · simp [crawl_site, crawl_loop, exFetchFailAll]
  · decide

/-- **C3 counterexample.** The claim says a crawl whose seed fetch fails
returns an error-shaped result, "in particular crawl_site does not return an
ordinary report with the failure merely folded into the error list".  But
`crawl_site` always returns the ordinary report dictionary: with a seed
fetch that fails, it returns a report counting the seed as crawled and
carrying the failure only in the error list. -/
theorem claim_c3_counterexample :
    (crawl_site exFetchFailAll exAnalyze exHrefsChild exSeed 10 3).1 =
      ⟨exSeed, 0, 1, 1, 3, [],
        [failMsg exSeed "connection timed out".toList]⟩ := by
  simp [crawl_site, crawl_loop, exFetchFailAll, failMsg]

/-- **C3 (amended).** When the seed fetch fails, `find_broken_links`
returns the error-shaped result `{url, error, broken_links: [],
redirects: []}`; `crawl_site` instead returns its ordinary report with the
failure recorded in the error list, no pages, and the seed still counted in
`pages_crawled`. -/
theorem claim_c3_seed_failure {α : Type} (fetch : Chars → Except Chars Chars)
    (probe : Chars → Except Chars ProbeResponse)
    (parseHrefs : Chars → List Chars) (analyze : Chars → Chars → α)
    (url e : Chars) (maxPages depth : Nat)
    (hf : fetch url = .error e) (hpos : 0 < maxPages) :
    find_broken_links fetch probe parseHrefs url = .errorResult url e ∧
    (crawl_site fetch analyze parseHrefs url maxPages depth).2.pages = [] ∧
    (crawl_site fetch analyze parseHrefs url maxPages depth).2.errors =
      [failMsg url e] ∧
    (crawl_site fetch analyze parseHrefs url maxPages depth).1.pages_crawled = 1 := by
  refine ⟨?_, ?_⟩
  · unfold find_broken_links
    rw [hf]
  · simp [crawl_site, crawl_loop, hf, hpos]

/-- Witness for C3 (amended) at a concrete failing seed fetch. -/
theorem claim_c3_witness :
    find_broken_links exFetchFailAll exAuditProbe exHrefsChild exSeed =
      .errorResult exSeed "connection timed out".toList ∧
    (crawl_site exFetchFailAll exAnalyze exHrefsChild exSeed 10 3).2.pages = [] ∧
    (crawl_site exFetchFailAll exAnalyze exHrefsChild exSeed 10 3).2.errors =
      [failMsg exSeed "connection timed out".toList] ∧
    (crawl_site exFetchFailAll exAnalyze exHrefsChild exSeed 10 3).1.pages_crawled = 1 :=
  claim_c3_seed_failure exFetchFailAll exAuditProbe exHrefsChild exAnalyze
    exSeed "connection timed out".toList 10 3 rfl (by decide)

/-- **C4 counterexample.** The claim says a failed non-seed fetch leaves
`pages_crawled` unaffected; but URLs are added to `crawled_urls` *before*
fetching, and `pages_crawled = len(crawled_urls)`, so the crawl of a seed
with one child whose fetch times out reports `pages_crawled = 2` (the claim
predicts 1); only `pages_found` stays at 1. -/
theorem claim_c4_counterexample :
    (crawl_site exFetchChildFails exAnalyze exHrefsChild exSeed 10 3).1.pages_crawled = 2 ∧
    (crawl_site exFetchChildFails exAnalyze exHrefsChild exSeed 10 3).1.pages_found = 1 ∧
    (crawl_site exFetchChildFails exAnalyze exHrefsChild exSeed 10 3).2.errors =
      [failMsg exChild "timed out".toList] := by
  have hex : extract_internal_links (exHrefsChild ['<', 'b', 'o', 'd', 'y', '>'])
      exSeed (urlparse exSeed []).netloc = [exChild] := by decide
  have hfs : exFetchChildFails exSeed = .ok "<body>".toList := rfl
  have hfc : exFetchChildFails exChild = .error "timed out".toList := rfl
  have hne : (exChild = exSeed) = False := by decide
  have hne2 : (exChild ∈ [exSeed]) = False := by decide
  refine ⟨?_, ?_, ?_⟩ <;>
    simp [crawl_site, crawl_loop, hex, hfs, hfc, hne, hne2]

/-- **C4 (amended).** For every crawl in which the fetch of a visited URL
fails, the crawl continues and an error entry
`"Failed to crawl {url}: {message}"` is appended to the report's errors; the
failed URL produces no page summary (so `pages_found` is unaffected by it),
but it *does* count toward `pages_crawled`, because URLs are marked visited
before they are fetched and `pages_crawled = len(crawled_urls)`. -/
theorem claim_c4_failed_fetch {α : Type} (fetch : Chars → Except Chars Chars)
    (analyze : Chars → Chars → α) (parseHrefs : Chars → List Chars)
    (url u e : Chars) (maxPages depth : Nat)
    (hfu : fetch u = .error e)
    (hmem : u ∈ (crawl_site fetch analyze parseHrefs url maxPages depth).2.crawled_urls) :
    failMsg u e ∈ (crawl_site fetch analyze parseHrefs url maxPages depth).2.errors ∧
    (∀ pg ∈ (crawl_site fetch analyze parseHrefs url maxPages depth).2.pages,
      pg.url ≠ u) ∧
    (crawl_site fetch analyze parseHrefs url maxPages depth).1.pages_crawled =
      (crawl_site fetch analyze parseHrefs url maxPages depth).2.crawled_urls.length := by
  refine ⟨?_, ?_, rfl⟩
  · simp only [crawl_site] at hmem ⊢
    exact crawl_loop_errors_recorded fetch analyze parseHrefs _ maxPages depth
      [] [(url, 0)] [] [] (by simp) u e hfu hmem
  · simp only [crawl_site]
    intro pg hpg hcontra
    have hok := crawl_loop_pages_fetched fetch analyze parseHrefs _ maxPages depth
      [] [(url, 0)] [] [] (by simp) pg hpg
    rcases hok with ⟨body, hbody⟩
    rw [hcontra, hfu] at hbody
    exact Except.noConfusion hbody

/-- Witness for C4 (amended): the concrete crawl in which the child fetch
times out. -/
theorem claim_c4_witness :
    failMsg exChild "timed out".toList ∈
      (crawl_site exFetchChildFails exAnalyze exHrefsChild exSeed 10 3).2.errors ∧
    (∀ pg ∈ (crawl_site exFetchChildFails exAnalyze exHrefsChild exSeed 10 3).2.pages,
      pg.url ≠ exChild) ∧
    (crawl_site exFetchChildFails exAnalyze exHrefsChild exSeed 10 3).1.pages_crawled =
      (crawl_site exFetchChildFails exAnalyze exHrefsChild exSeed 10 3).2.crawled_urls.length :=
  claim_c4_failed_fetch exFetchChildFails exAnalyze exHrefsChild exSeed exChild
    "timed out".toList 10 3 rfl (by
      have hex : extract_internal_links (exHrefsChild ['<', 'b', 'o', 'd', 'y', '>'])
          exSeed (urlparse exSeed []).netloc = [exChild] := by decide
      have hfs : exFetchChildFails exSeed = .ok "<body>".toList := rfl
      have hfc : exFetchChildFails exChild = .error "timed out".toList := rfl
      have hne : (exChild = exSeed) = False := by decide
      have hne2 : (exChild ∈ [exSeed]) = False := by decide
      simp [crawl_site, crawl_loop, hex, hfs, hfc, hne, hne2])

/-! ## Idempotence of normalization (C9) -/

/-- `List.contains` on characters agrees with membership. -/
theorem char_contains_iff (l : Chars) (c : Char) : l.contains c = true ↔ c ∈ l := by
  simp [List.contains_iff_exists_mem_beq]

/-- Characters of `afterLastSlash p` are characters of `p` other than
`'/'`. -/
theorem afterLastSlash_subset (p : Chars) :
    ∀ c ∈ afterLastSlash p, c ∈ p ∧ c ≠ '/' := by
  intro c hc
  unfold afterLastSlash at hc
  have h1 := List.mem_reverse.mp hc
  constructor
  · exact List.mem_reverse.mp ((List.takeWhile_sublist _).subset h1)
  · have := List.mem_takeWhile_imp h1
    simpa using this

/-- Characters surviving `removeUnsafe` are not unsafe. -/
theorem removeUnsafe_mem (l : Chars) :
    ∀ c ∈ removeUnsafe l, c ≠ '\t' ∧ c ≠ '\r' ∧ c ≠ '\n' := by
  intro c hc
  have := List.of_mem_filter hc
  simp only [Bool.and_eq_true, bne_iff_ne, ne_eq] at this
  exact ⟨this.1.1, this.1.2, this.2⟩

/-- `removeUnsafe` is the identity on unsafe-free strings. -/
theorem removeUnsafe_eq_self (l : Chars)
    (h : ∀ c ∈ l, c ≠ '\t' ∧ c ≠ '\r' ∧ c ≠ '\n') : removeUnsafe l = l := by
  unfold removeUnsafe
  refine List.filter_eq_self.mpr ?_
  intro c hc
  rcases h c hc with ⟨h1, h2, h3⟩
  simp [h1, h2, h3]

/-- The unsplit remainder produced by `splitScheme` is made of characters of
the input. -/
theorem splitScheme_snd_subset (u d : Chars) :
    ∀ c ∈ (splitScheme u d).2, c ∈ u := by
  simp only [splitScheme]
  split
  · exact fun c hc => hc
  · rename_i x tail heq
    split
    · exact fun c hc => hc
    · split
      · intro c hc
        have h2 : c ∈ x :: tail := List.mem_cons_of_mem _ hc
        rw [← heq] at h2
        exact (List.dropWhile_sublist _).subset h2
      · exact fun c hc => hc

/-- The netloc of `urlsplit` is made of characters of the cleaned input. -/
theorem urlsplit_netloc_mem (u d : Chars) :
    ∀ c ∈ (urlsplit u d).netloc, c ∈ removeUnsafe u := by
  simp only [urlsplit, splitnetloc]
  split
  · intro c hc
    have h1 := (List.takeWhile_sublist _).subset hc
    have h2 := List.drop_subset 2 _ h1
    exact splitScheme_snd_subset _ _ c h2
  · intro c hc
    simp at hc

/-- The path of `urlsplit` is made of characters of the cleaned input. -/
theorem urlsplit_path_mem (u d : Chars) :
    ∀ c ∈ (urlsplit u d).path, c ∈ removeUnsafe u := by
  simp only [urlsplit, splitOnFirst, splitnetloc]
  intro c hc
  have h1 := (List.takeWhile_sublist _).subset hc
  have h2 := (List.takeWhile_sublist _).subset h1
  revert h2
  split
  · intro h2
    have h3 := (List.dropWhile_sublist _).subset h2
    have h4 := List.drop_subset 2 _ h3
    exact splitScheme_snd_subset _ _ c h4
  · intro h2
    exact splitScheme_snd_subset _ _ c h2

/-- Character-table facts about lowercased scheme characters. -/
theorem schemeChars_toLower_facts :
    ∀ c0 ∈ schemeChars, c0.toLower ∈ schemeChars ∧
      Char.toLower c0.toLower = c0.toLower ∧ c0.toLower ≠ ':' ∧
      c0.toLower ≠ '\t' ∧ c0.toLower ≠ '\r' ∧ c0.toLower ≠ '\n' ∧
      (c0.isAlpha = true → c0.toLower.isAlpha = true) := by decide

/-- A nonempty scheme produced by `splitScheme` with empty default comes
from the validated-and-lowercased prefix before the first `':'`. -/
theorem splitScheme_success (u : Chars) (h : (splitScheme u []).1 ≠ []) :
    ∃ c cs, (splitScheme u []).1 = (c :: cs).map Char.toLower ∧
      c.isAlpha = true ∧ ∀ x ∈ c :: cs, x ∈ schemeChars := by
  revert h
  simp only [splitScheme]
  split
  · intro h
    exact absurd rfl h
  · split
    · intro h
      exact absurd rfl h
    · rename_i x tail heq2
      split
      · rename_i hcond
        intro _
        rw [heq2] at hcond
        refine ⟨x, tail, ?_, ?_, ?_⟩
        · simp only []
          rw [heq2]
        · exact (Bool.and_eq_true _ _).mp hcond |>.1
        · intro y hy
          have hall := (Bool.and_eq_true _ _).mp hcond |>.2
          have := List.all_eq_true.mp hall y hy
          simpa [List.contains_iff_exists_mem_beq] using this
      · intro h
        exact absurd rfl h

/-- Structural facts about a nonempty `urlparse` scheme (empty default):
every character is a lowercase-fixed scheme character distinct from `':'`
and the unsafe bytes, and the first character is a letter. -/
theorem urlparse_scheme_facts (u : Chars) (h : (urlparse u []).scheme ≠ []) :
    (∀ c ∈ (urlparse u []).scheme, c ∈ schemeChars ∧ Char.toLower c = c ∧
      c ≠ ':' ∧ c ≠ '\t' ∧ c ≠ '\r' ∧ c ≠ '\n') ∧
    ∃ c cs, (urlparse u []).scheme = c :: cs ∧ c.isAlpha = true := by
  rw [urlparse_scheme_eq] at h ⊢
  have hs : (urlsplit u []).scheme = (splitScheme (removeUnsafe u) []).1 := rfl
  rw [hs] at h ⊢
  obtain ⟨c, cs, heq, halpha, hmem⟩ := splitScheme_success (removeUnsafe u) h
  constructor
  · intro d hd
    rw [heq] at hd
    rcases List.mem_map.mp hd with ⟨c0, hc0, rfl⟩
    have hc0s := hmem c0 hc0
    obtain ⟨h1, h2, h3, h4, h5, h6, _⟩ := schemeChars_toLower_facts c0 hc0s
    exact ⟨h1, h2, h3, h4, h5, h6⟩
  · refine ⟨c.toLower, cs.map Char.toLower, ?_, ?_⟩
    · rw [heq]
      rfl
    · have hcs := hmem c (List.mem_cons_self _ _)
      exact (schemeChars_toLower_facts c hcs).2.2.2.2.2.2 halpha

/-- `takeWhile` over an append stops inside the left part as soon as the
left part contains a failing element. -/
theorem takeWhile_append_stop {q : Char → Bool} {l1 l2 : Chars}
    (h : ∃ a ∈ l1, q a = false) :
    (l1 ++ l2).takeWhile q = l1.takeWhile q := by
  rw [List.takeWhile_append]
  rw [if_neg]
  intro hlen
  rcases h with ⟨a, ha, hqa⟩
  have heq : l1.takeWhile q = l1 :=
    (List.takeWhile_sublist q).eq_of_length hlen
  rw [← heq] at ha
  have := List.mem_takeWhile_imp ha
  rw [this] at hqa
  exact Bool.noConfusion hqa

/-- The head of a `dropWhile` result fails the predicate. -/
theorem dropWhile_head_false {q : Char → Bool} {l t : Chars} {x : Char}
    (h : l.dropWhile q = x :: t) : q x = false := by
  induction l with
  | nil => exact absurd h (by simp)
  | cons a l ih =>
    rw [List.dropWhile_cons] at h
    by_cases hqa : q a = true
    · rw [if_pos hqa] at h
      exact ih h
    · rw [if_neg hqa] at h
      have hax : a = x := (List.cons.injEq _ _ _ _).mp h |>.1
      rw [← hax]
      exact Bool.not_eq_true _ |>.mp hqa

/-- A list is its reverse's drop-part followed by its final `'/'`-free
segment. -/
theorem afterLastSlash_decomp (p0 : Chars) :
    p0 = (p0.reverse.dropWhile (· != '/')).reverse ++ afterLastSlash p0 := by
  unfold afterLastSlash
  have h := List.takeWhile_append_dropWhile (fun x => x != '/') p0.reverse
  have h2 := congrArg List.reverse h
  rw [List.reverse_append, List.reverse_reverse] at h2
  exact h2.symm

/-- The path component of `_splitparams` never carries a `';'` after its
last `'/'`. -/
theorem splitparams_fst_semicolon (p0 : Chars) :
    ';' ∉ afterLastSlash (splitparams p0).1 := by
  simp only [splitparams]
  split
  · rename_i hslash
    split
    · rename_i hsemi
      -- the splitting branch: path = pre ++ (suf up to the first ';')
      intro hmem
      set A := p0.reverse.takeWhile (· != '/') with hA
      set suf := A.reverse with hsuf
      set tk := suf.takeWhile (· != ';') with htk
      set B := (p0.reverse.dropWhile (· != '/')).reverse with hB
      have hdecomp : p0 = B ++ suf := afterLastSlash_decomp p0
      have hlen : p0.length - suf.length = B.length := by
        rw [hdecomp, List.length_append]
        omega
      have hpre : p0.take (p0.length - suf.length) = B := by
        rw [hlen]
        conv in p0.take _ => rw [hdecomp]
        exact List.take_left B suf
      rw [hpre] at hmem
      -- afterLastSlash (B ++ tk) = tk
      have htk_noslash : ∀ c ∈ tk.reverse, (c != '/') = true := by
        intro c hc
        have h1 := List.mem_reverse.mp hc
        rw [htk] at h1
        have h2 := (List.takeWhile_sublist _).subset h1
        rw [hsuf] at h2
        have h3 := List.mem_reverse.mp h2
        rw [hA] at h3
        have h4 := List.mem_takeWhile_imp h3
        exact h4
      have hBrev : B.reverse = p0.reverse.dropWhile (· != '/') := by
        rw [hB, List.reverse_reverse]
      have hstep : afterLastSlash (B ++ tk) = tk := by
        unfold afterLastSlash
        rw [List.reverse_append]
        rw [List.takeWhile_append_of_pos htk_noslash]
        rw [hBrev]
        cases hdw : p0.reverse.dropWhile (· != '/') with
        | nil =>
          simp
        | cons x t =>
          have hx := dropWhile_head_false hdw
          rw [List.takeWhile_cons_of_neg (by simp [hx])]
          simp
      rw [hstep, htk] at hmem
      have := List.mem_takeWhile_imp hmem
      simp at this
    · rename_i hsemi
      -- no ';' in the final segment: path returned unchanged
      intro hmem
      apply hsemi
      rw [char_contains_iff]
      exact hmem
  · rename_i hslash
    split
    · intro hmem
      have h1 := (afterLastSlash_subset _ ';' hmem).1
      have := List.mem_takeWhile_imp h1
      simp at this
    · rename_i hsemi
      intro hmem
      apply hsemi
      rw [char_contains_iff]
      exact (afterLastSlash_subset _ ';' hmem).1

/-- The parsed path never carries a `';'` after its last `'/'` when the
scheme uses params (the invariant `_splitparams` establishes and the
reparse relies on). -/
theorem urlparse_path_params_inv (u : Chars)
    (hu : (urlparse u []).scheme ∈ usesParams) :
    ';' ∉ afterLastSlash (urlparse u []).path := by
  revert hu
  simp only [urlparse]
  split
  · intro _
    exact splitparams_fst_semicolon _
  · rename_i hcond
    intro hu
    intro hmem
    apply hcond
    refine ⟨hu, ?_⟩
    rw [char_contains_iff]
    exact (afterLastSlash_subset _ ';' hmem).1

/-- Re-splitting a rebuilt `scheme://netloc+path` URL: the scheme is
recovered exactly, the netloc extends up to the first delimiter of the path
part, and the path is the delimiter-led remainder; query and fragment are
empty. -/
theorem urlsplit_rebuild (s n p : Chars)
    (hs_facts : ∀ c ∈ s, c ∈ schemeChars ∧ Char.toLower c = c ∧ c ≠ ':' ∧
      c ≠ '\t' ∧ c ≠ '\r' ∧ c ≠ '\n')
    (hs_head : ∃ c cs, s = c :: cs ∧ c.isAlpha = true)
    (hn : ∀ c ∈ n, netlocDelim c = false ∧ c ≠ '\t' ∧ c ≠ '\r' ∧ c ≠ '\n')
    (hp : ∀ c ∈ p, c ≠ '?' ∧ c ≠ '#' ∧ c ≠ '\t' ∧ c ≠ '\r' ∧ c ≠ '\n') :
    urlsplit (s ++ ':' :: '/' :: '/' :: (n ++ p)) [] =
      ⟨s, n ++ p.takeWhile (fun c => !netlocDelim c),
       p.dropWhile (fun c => !netlocDelim c), [], []⟩ := by
  have hclean : removeUnsafe (s ++ ':' :: '/' :: '/' :: (n ++ p)) =
      s ++ ':' :: '/' :: '/' :: (n ++ p) := by
    apply removeUnsafe_eq_self
    intro c hc
    rcases List.mem_append.mp hc with h1 | h2
    · exact ⟨(hs_facts c h1).2.2.2.1, (hs_facts c h1).2.2.2.2.1,
        (hs_facts c h1).2.2.2.2.2⟩
    · rcases h2 with _ | ⟨_, _ | ⟨_, _ | ⟨_, h3⟩⟩⟩
      · exact ⟨by decide, by decide, by decide⟩
      · exact ⟨by decide, by decide, by decide⟩
      · exact ⟨by decide, by decide, by decide⟩
      · rcases List.mem_append.mp h3 with h4 | h5
        · exact ⟨(hn c h4).2.1, (hn c h4).2.2.1, (hn c h4).2.2.2⟩
        · exact ⟨(hp c h5).2.2.1, (hp c h5).2.2.2.1, (hp c h5).2.2.2.2⟩
  have htw : (s ++ ':' :: '/' :: '/' :: (n ++ p)).takeWhile (· != ':') = s := by
    rw [List.takeWhile_append_of_pos (fun a ha => by
      simp only [bne_iff_ne, ne_eq]
      exact (hs_facts a ha).2.2.1)]
    rw [List.takeWhile_cons_of_neg (by simp)]
    simp
  have hdw : (s ++ ':' :: '/' :: '/' :: (n ++ p)).dropWhile (· != ':') =
      ':' :: '/' :: '/' :: (n ++ p) := by
    rw [List.dropWhile_append_of_pos (fun a ha => by
      simp only [bne_iff_ne, ne_eq]
      exact (hs_facts a ha).2.2.1)]
    rw [List.dropWhile_cons_of_neg (by simp)]
  have hsch : splitScheme (s ++ ':' :: '/' :: '/' :: (n ++ p)) [] =
      (s, '/' :: '/' :: (n ++ p)) := by
    obtain ⟨c, cs, hcons, halpha⟩ := hs_head
    subst hcons
    simp only [splitScheme, htw, hdw]
    rw [if_pos]
    · have hmap : (c :: cs).map Char.toLower = c :: cs := by
        rw [List.map_congr_left (fun x hx => (hs_facts x hx).2.1)]
        exact List.map_id' _
      rw [hmap]
    · refine (Bool.and_eq_true _ _).mpr ⟨halpha, ?_⟩
      refine List.all_eq_true.mpr ?_
      intro x hx
      rw [char_contains_iff]
      exact (hs_facts x hx).1
  have hnl : splitnetloc (n ++ p) =
      (n ++ p.takeWhile (fun c => !netlocDelim c),
       p.dropWhile (fun c => !netlocDelim c)) := by
    simp only [splitnetloc, Prod.mk.injEq]
    constructor
    · rw [List.takeWhile_append_of_pos (fun a ha => by
        simp [(hn a ha).1])]
    · rw [List.dropWhile_append_of_pos (fun a ha => by
        simp [(hn a ha).1])]
  have hrest_sub : ∀ c ∈ p.dropWhile (fun c => !netlocDelim c), c ∈ p :=
    fun c hc => (List.dropWhile_sublist _).subset hc
  have hfr : (p.dropWhile (fun c => !netlocDelim c)).takeWhile (· != '#') =
      p.dropWhile (fun c => !netlocDelim c) := by
    refine List.takeWhile_eq_self_iff.mpr ?_
    intro x hx
    simp only [bne_iff_ne, ne_eq]
    exact (hp x (hrest_sub x hx)).2.1
  have hfr2 : (p.dropWhile (fun c => !netlocDelim c)).dropWhile (· != '#') = [] := by
    refine List.dropWhile_eq_nil_iff.mpr ?_
    intro x hx
    simp only [bne_iff_ne, ne_eq]
    exact (hp x (hrest_sub x hx)).2.1
  have hqr : (p.dropWhile (fun c => !netlocDelim c)).takeWhile (· != '?') =
      p.dropWhile (fun c => !netlocDelim c) := by
    refine List.takeWhile_eq_self_iff.mpr ?_
    intro x hx
    simp only [bne_iff_ne, ne_eq]
    exact (hp x (hrest_sub x hx)).1
  have hqr2 : (p.dropWhile (fun c => !netlocDelim c)).dropWhile (· != '?') = [] := by
    refine List.dropWhile_eq_nil_iff.mpr ?_
    intro x hx
    simp only [bne_iff_ne, ne_eq]
    exact (hp x (hrest_sub x hx)).1
  have hif : ('/' :: '/' :: (n ++ p)).take 2 = ['/', '/'] := rfl
  have hif2 : ('/' :: '/' :: (n ++ p)).drop 2 = n ++ p := rfl
  have hds : removeUnsafe [] = [] := rfl
  simp only [urlsplit, hclean, hds, hsch, hif, hif2]
  simp only [if_true]
  simp only [hnl, splitOnFirst, hfr, hfr2, hqr, hqr2]
  rfl

/-- **C9 (amended).** For every URL whose parsed scheme is nonempty (in
particular every absolute `http(s)` URL), the extractor's normalization
`scheme+host+path` is idempotent: re-normalizing the normalized URL returns
it unchanged.  (For scheme-less URLs it is not: see the counterexample.) -/
theorem claim_c9_normalize_idempotent (u : Chars)
    (h : (urlparse u []).scheme ≠ []) :
    normalize_url (normalize_url u) = normalize_url u := by
  obtain ⟨hs_facts, hs_head⟩ := urlparse_scheme_facts u h
  have hn_facts : ∀ c ∈ (urlparse u []).netloc,
      netlocDelim c = false ∧ c ≠ '\t' ∧ c ≠ '\r' ∧ c ≠ '\n' := by
    intro c hc
    rw [urlparse_netloc_eq] at hc
    exact ⟨urlsplit_netloc_chars u [] c hc,
      removeUnsafe_mem u c (urlsplit_netloc_mem u [] c hc)⟩
  have hp_facts : ∀ c ∈ (urlparse u []).path,
      c ≠ '?' ∧ c ≠ '#' ∧ c ≠ '\t' ∧ c ≠ '\r' ∧ c ≠ '\n' := by
    intro c hc
    have hc2 := urlparse_path_subset u [] c hc
    refine ⟨(urlsplit_path_chars u [] c hc2).1, (urlsplit_path_chars u [] c hc2).2,
      removeUnsafe_mem u c (urlsplit_path_mem u [] c hc2)⟩
  have hsep : "://".toList = [':', '/', '/'] := rfl
  have hw : normalize_url u = (urlparse u []).scheme ++ ':' :: '/' :: '/' ::
      ((urlparse u []).netloc ++ (urlparse u []).path) := by
    simp only [normalize_url, hsep, List.append_assoc, List.cons_append,
      List.nil_append]
  have hsplit := urlsplit_rebuild (urlparse u []).scheme (urlparse u []).netloc
    (urlparse u []).path hs_facts hs_head hn_facts hp_facts
  have hup_eq : ∀ (w d : Chars), urlparse w d =
      if (urlsplit w d).scheme ∈ usesParams ∧
          (urlsplit w d).path.contains ';' = true then
        ⟨(urlsplit w d).scheme, (urlsplit w d).netloc,
         (splitparams (urlsplit w d).path).1, (splitparams (urlsplit w d).path).2,
         (urlsplit w d).query, (urlsplit w d).fragment⟩
      else
        ⟨(urlsplit w d).scheme, (urlsplit w d).netloc, (urlsplit w d).path, [],
         (urlsplit w d).query, (urlsplit w d).fragment⟩ := fun w d => rfl
  have hparse : urlparse (normalize_url u) [] =
      ⟨(urlparse u []).scheme,
       (urlparse u []).netloc ++
         (urlparse u []).path.takeWhile (fun c => !netlocDelim c),
       (urlparse u []).path.dropWhile (fun c => !netlocDelim c), [], [], []⟩ := by
    rw [hw]
    rw [hup_eq, hsplit]
    by_cases hc : (urlparse u []).scheme ∈ usesParams ∧
        ((urlparse u []).path.dropWhile (fun c => !netlocDelim c)).contains ';' = true
    · rw [if_pos hc]
      have hsemi : ';' ∈ (urlparse u []).path.dropWhile (fun c => !netlocDelim c) :=
        (char_contains_iff _ _).mp hc.2
      have hdne : (urlparse u []).path.dropWhile (fun c => !netlocDelim c) ≠ [] := by
        intro h0
        rw [h0] at hsemi
        simp at hsemi
      obtain ⟨x, t, hxt⟩ := List.exists_cons_of_ne_nil hdne
      have hx_delim : netlocDelim x = true := by
        have := dropWhile_head_false hxt
        simpa using this
      have hx_mem : x ∈ (urlparse u []).path := by
        have : x ∈ (urlparse u []).path.dropWhile (fun c => !netlocDelim c) := by
          rw [hxt]
          exact List.mem_cons_self _ _
        exact (List.dropWhile_sublist _).subset this
      have hx_slash : x = '/' := by
        have h1 := (hp_facts x hx_mem).1
        have h2 := (hp_facts x hx_mem).2.1
        simp only [netlocDelim, Bool.or_eq_true, beq_iff_eq] at hx_delim
        rcases hx_delim with (h3 | h3) | h3
        · exact h3
        · exact absurd h3 h1
        · exact absurd h3 h2
      have hslash_mem : '/' ∈ (urlparse u []).path.dropWhile (fun c => !netlocDelim c) := by
        rw [hxt, ← hx_slash]
        exact List.mem_cons_self _ _
      have hafter : afterLastSlash ((urlparse u []).path.dropWhile (fun c => !netlocDelim c)) =
          afterLastSlash (urlparse u []).path := by
        unfold afterLastSlash
        have hdecp : (urlparse u []).path =
            (urlparse u []).path.takeWhile (fun c => !netlocDelim c) ++
            (urlparse u []).path.dropWhile (fun c => !netlocDelim c) :=
          (List.takeWhile_append_dropWhile _ _).symm
        have hrev : (urlparse u []).path.reverse =
            ((urlparse u []).path.dropWhile (fun c => !netlocDelim c)).reverse ++
            ((urlparse u []).path.takeWhile (fun c => !netlocDelim c)).reverse := by
          conv in (urlparse u []).path.reverse => rw [hdecp]
          rw [List.reverse_append]
        rw [hrev]
        rw [takeWhile_append_stop ⟨'/', List.mem_reverse.mpr hslash_mem, by simp⟩]
      have hnosemi := urlparse_path_params_inv u hc.1
      rw [← hafter] at hnosemi
      have hsp : splitparams ((urlparse u []).path.dropWhile (fun c => !netlocDelim c)) =
          ((urlparse u []).path.dropWhile (fun c => !netlocDelim c), []) := by
        simp only [splitparams]
        rw [if_pos ((char_contains_iff _ _).mpr hslash_mem)]
        rw [if_neg]
        intro hcont
        apply hnosemi
        unfold afterLastSlash
        exact (char_contains_iff _ _).mp hcont
      rw [hsp]
    · rw [if_neg hc]
  have hfinal : normalize_url (normalize_url u) =
      (urlparse u []).scheme ++ "://".toList ++
        ((urlparse u []).netloc ++
          (urlparse u []).path.takeWhile (fun c => !netlocDelim c)) ++
        (urlparse u []).path.dropWhile (fun c => !netlocDelim c) := by
    rw [normalize_url, hparse]
  rw [hfinal, normalize_url]
  simp only [List.append_assoc, List.takeWhile_append_dropWhile]

/-- **C9 counterexample.** `"://host/path"` is an already-normalized URL
(it is the normalization of the protocol-relative `"//host/path"`), but
normalizing it again yields `"://://host/path"`: normalization is not
idempotent on scheme-less URLs, because the rebuilt `"://..."` string no
longer re-parses with the same components. -/
theorem claim_c9_counterexample :
    normalize_url "//host/path".toList = "://host/path".toList ∧
    normalize_url (normalize_url "//host/path".toList) ≠
      normalize_url "//host/path".toList := by
  constructor
  · decide
  · decide

/-- Witness for C9 (amended) at a concrete absolute URL with query and
fragment. -/
theorem claim_c9_witness :
    (urlparse "https://example.com/page?x=1#f".toList []).scheme ≠ [] ∧
    normalize_url (normalize_url "https://example.com/page?x=1#f".toList) =
      normalize_url "https://example.com/page?x=1#f".toList :=
  ⟨by decide, claim_c9_normalize_idempotent "https://example.com/page?x=1#f".toList
    (by decide)⟩
